import Mathlib

/-!
Verification development for the pulsea.db storage engine
(src/base/Database.js, src/helpers/Encryption.js).

The development shallowly embeds the JavaScript code:

* JS runtime values are the inductive `JSVal` (JS numbers are modelled as
  integers; floating point, NaN and Infinity are outside the model).
* The external collaborators (the k9crypt cipher composed with zlib
  deflate and base64, see spec section 6) are modelled as a parameter pair
  `E D : String -> Option String`; a theorem that needs the collaborator
  contract takes the hypothesis that `D` inverts `E`.  `none` models a
  throwing step, which the code catches.
* `JSON.stringify` and `JSON.parse` (JS standard library) are modelled by
  an executable printer `emitV` and parser `parseV`.  The printer escapes
  every control character with a uniform four digit escape where
  JSON.stringify would use the short forms for five of them; both parse
  back to the same character, and no claim observes the token text.
  The parser covers integer numerals; fractional and exponent literals
  are outside the model (floating point is out of scope).
-/

/-- JavaScript values, restricted to the structured data the database
stores.  Objects and arrays are finite association lists / lists, in
insertion order, matching enumeration order of non integer keyed JS
objects. -/
inductive JSVal where
  | null
  | undef
  | bool (b : Bool)
  | num (n : Int)
  | str (s : String)
  | arr (elems : List JSVal)
  | obj (fields : List (String × JSVal))

namespace JSVal

/-- JS truthiness (`!!v`).  `NaN` is outside the model. -/
def jsTruthy : JSVal → Bool
  | .null => false
  | .undef => false
  | .bool b => b
  | .num n => n != 0
  | .str s => s ≠ ""
  | .arr _ => true
  | .obj _ => true

/-- Result of the JS `typeof` operator (as a string).  `typeof null` is
"object" in JavaScript. -/
def typeofStr : JSVal → String
  | .null => "object"
  | .undef => "undefined"
  | .bool _ => "boolean"
  | .num _ => "number"
  | .str _ => "string"
  | .arr _ => "object"
  | .obj _ => "object"

end JSVal

/-! Decimal printing of natural numbers, as `String(n)` does for non
negative integers.  Fueled so that it evaluates inside the kernel. -/

def digitChar (d : Nat) : Char := Char.ofNat (48 + d)

def natCharsGo : Nat → Nat → List Char
  | 0, _ => []
  | fuel + 1, n =>
    if n < 10 then [digitChar n]
    else natCharsGo fuel (n / 10) ++ [digitChar (n % 10)]

/-- Decimal digits of `n`, most significant first. -/
def natChars (n : Nat) : List Char := natCharsGo (n + 1) n

/-- Decimal rendering of an integer, as the JS template conversion
`String(n)` produces for integral numbers. -/
def intChars (n : Int) : List Char :=
  if n < 0 then '-' :: natChars n.natAbs else natChars n.natAbs

/-- Numeric value of a big endian digit list (used by the number parser). -/
def digitsVal (ds : List Char) : Nat :=
  ds.foldl (fun a c => 10 * a + (c.toNat - 48)) 0

theorem digitsVal_append_one (ds : List Char) (c : Char) :
    digitsVal (ds ++ [c]) = 10 * digitsVal ds + (c.toNat - 48) := by
  simp [digitsVal]

theorem natCharsGo_spec (fuel n : Nat) (h : n + 1 ≤ fuel) :
    digitsVal (natCharsGo fuel n) = n ∧
    natCharsGo fuel n ≠ [] ∧
    ∀ c ∈ natCharsGo fuel n, c.isDigit := by
  induction fuel generalizing n with
  | zero => omega
  | succ f ih =>
    by_cases hlt : n < 10
    · refine ⟨?_, by simp [natCharsGo, hlt], ?_⟩
      · simp [natCharsGo, hlt, digitsVal, digitChar, Char.toNat]
        interval_cases n <;> decide
      · intro c hc
        simp [natCharsGo, hlt] at hc
        subst hc
        unfold digitChar
        interval_cases n <;> decide
    · have hdiv : n / 10 + 1 ≤ f := by omega
      obtain ⟨hval, hne, hdig⟩ := ih (n / 10) hdiv
      refine ⟨?_, by simp [natCharsGo, hlt], ?_⟩
      · rw [natCharsGo, if_neg hlt, digitsVal_append_one, hval]
        have hmod : n % 10 < 10 := Nat.mod_lt _ (by omega)
        have : (digitChar (n % 10)).toNat - 48 = n % 10 := by
          unfold digitChar
          have h10 : n % 10 = 0 ∨ n % 10 = 1 ∨ n % 10 = 2 ∨ n % 10 = 3 ∨
              n % 10 = 4 ∨ n % 10 = 5 ∨ n % 10 = 6 ∨ n % 10 = 7 ∨
              n % 10 = 8 ∨ n % 10 = 9 := by omega
          rcases h10 with h | h | h | h | h | h | h | h | h | h <;>
            rw [h] <;> decide
        rw [this]
        omega
      · intro c hc
        rw [natCharsGo, if_neg hlt] at hc
        rcases List.mem_append.1 hc with h | h
        · exact hdig c h
        · simp at h
          subst h
          unfold digitChar
          have hmod : n % 10 < 10 := Nat.mod_lt _ (by omega)
          interval_cases hx : (n % 10) <;> decide

theorem natChars_val (n : Nat) : digitsVal (natChars n) = n :=
  (natCharsGo_spec (n + 1) n (Nat.le_refl _)).1

theorem natChars_ne_nil (n : Nat) : natChars n ≠ [] :=
  (natCharsGo_spec (n + 1) n (Nat.le_refl _)).2.1

theorem natChars_digits (n : Nat) : ∀ c ∈ natChars n, c.isDigit :=
  (natCharsGo_spec (n + 1) n (Nat.le_refl _)).2.2

/-! Whitespace and string escaping for the JSON codec model. -/

def isWs (c : Char) : Bool := c = ' ' || c = '\t' || c = '\n' || c = '\r'

def skipWs (cs : List Char) : List Char := cs.dropWhile isWs

def hexDigitChar (d : Nat) : Char :=
  if d < 10 then Char.ofNat (48 + d) else Char.ofNat (87 + d)

def isHexDigitB (c : Char) : Bool :=
  c.isDigit || ('a' ≤ c && c ≤ 'f') || ('A' ≤ c && c ≤ 'F')

def hexVal (c : Char) : Nat :=
  if c.isDigit then c.toNat - 48
  else if 'a' ≤ c && c ≤ 'f' then c.toNat - 87
  else c.toNat - 55

/-- Escape of one character inside a JSON string literal.  JSON.stringify
uses short escapes for five of the control characters; the model uses the
four digit form uniformly.  Both parse back to the same character and no
claim observes the literal token text. -/
def escChar (c : Char) : List Char :=
  if c = '"' then ['\\', '"']
  else if c = '\\' then ['\\', '\\']
  else if c.toNat < 32 then
    ['\\', 'u', '0', '0', hexDigitChar (c.toNat / 16), hexDigitChar (c.toNat % 16)]
  else [c]

def escChars (cs : List Char) : List Char := (cs.map escChar).flatten

def isUndefB : JSVal → Bool
  | .undef => true
  | _ => false

/-! The printer: model of JSON.stringify (no indentation, as the code
calls it inside encryptValue).  An `undefined` array element prints as
null and an `undefined` object field is omitted, as JSON.stringify does;
a top level `undefined` never reaches the printer (encryptValue returns
null and undefined unchanged before serializing). -/

def nullChars : List Char := ['n', 'u', 'l', 'l']

def trueChars : List Char := ['t', 'r', 'u', 'e']

def falseChars : List Char := ['f', 'a', 'l', 's', 'e']

mutual

def emitV : JSVal → List Char
  | .null => nullChars
  | .undef => nullChars
  | .bool true => trueChars
  | .bool false => falseChars
  | .num n => intChars n
  | .str s => '"' :: (escChars s.data ++ ['"'])
  | .arr [] => ['[', ']']
  | .arr (x :: xs) => '[' :: (emitV x ++ emitATail xs)
  | .obj fs => '{' :: emitOGo false fs

def emitATail : List JSVal → List Char
  | [] => [']']
  | y :: ys => ',' :: (emitV y ++ emitATail ys)

def emitOGo : Bool → List (String × JSVal) → List Char
  | _, [] => ['}']
  | started, (k, v) :: rest =>
    if isUndefB v then emitOGo started rest
    else
      (if started then [','] else []) ++
        ('"' :: (escChars k.data ++ ['"', ':'] ++ emitV v)) ++ emitOGo true rest

end

/-! Parser fuel requirements (one unit per nesting step of parseV). -/

mutual

def needV : JSVal → Nat
  | .arr [] => 1
  | .arr (x :: xs) => 1 + max (needV x) (needATail xs)
  | .obj [] => 1
  | .obj ((_, v) :: fs) => 1 + max (1 + needV v) (needOTail fs)
  | _ => 1

def needATail : List JSVal → Nat
  | [] => 1
  | y :: ys => 1 + max (needV y) (needATail ys)

def needOTail : List (String × JSVal) → Nat
  | [] => 1
  | (_, v) :: fs => 1 + max (1 + needV v) (needOTail fs)

end

/-! Absence of `undefined` anywhere inside a value (JSON representable). -/

mutual

def noUndefB : JSVal → Bool
  | .undef => false
  | .arr xs => noUndefL xs
  | .obj fs => noUndefF fs
  | _ => true

def noUndefL : List JSVal → Bool
  | [] => true
  | x :: xs => noUndefB x && noUndefL xs

def noUndefF : List (String × JSVal) → Bool
  | [] => true
  | (_, v) :: fs => noUndefB v && noUndefF fs

end

/-! The parser: executable model of JSON.parse.  It consumes a character
list and returns the parsed value together with the unconsumed suffix.
Value nesting is fueled (the wrapper supplies input length plus one,
which always suffices); string bodies and digit runs are structural. -/

def escCode (e : Char) : Option Char :=
  if e = '"' then some '"'
  else if e = '\\' then some '\\'
  else if e = '/' then some '/'
  else if e = 'n' then some '\n'
  else if e = 't' then some '\t'
  else if e = 'r' then some '\r'
  else if e = 'b' then some '\x08'
  else if e = 'f' then some '\x0c'
  else none

def parseStrBody : List Char → Option (List Char × List Char)
  | [] => none
  | c :: r =>
    if c = '"' then some ([], r)
    else if c = '\\' then
      match r with
      | [] => none
      | e :: r2 =>
        if e = 'u' then
          match r2 with
          | h1 :: h2 :: h3 :: h4 :: r3 =>
            if isHexDigitB h1 && isHexDigitB h2 && isHexDigitB h3 && isHexDigitB h4 then
              (parseStrBody r3).map (fun p =>
                (Char.ofNat (((hexVal h1 * 16 + hexVal h2) * 16 + hexVal h3) * 16 + hexVal h4)
                   :: p.1, p.2))
            else none
          | _ => none
        else
          match escCode e with
          | some d => (parseStrBody r2).map (fun p => (d :: p.1, p.2))
          | none => none
    else (parseStrBody r).map (fun p => (c :: p.1, p.2))

mutual

def parseV : Nat → List Char → Option (JSVal × List Char)
  | 0, _ => none
  | fuel + 1, cs =>
    match skipWs cs with
    | [] => none
    | c :: r =>
      if c = 'n' then
        match r with
        | 'u' :: 'l' :: 'l' :: r2 => some (.null, r2)
        | _ => none
      else if c = 't' then
        match r with
        | 'r' :: 'u' :: 'e' :: r2 => some (.bool true, r2)
        | _ => none
      else if c = 'f' then
        match r with
        | 'a' :: 'l' :: 's' :: 'e' :: r2 => some (.bool false, r2)
        | _ => none
      else if c = '"' then
        (parseStrBody r).map (fun p => (.str (String.mk p.1), p.2))
      else if c = '[' then
        match skipWs r with
        | [] => none
        | c2 :: r2 =>
          if c2 = ']' then some (.arr [], r2)
          else do
            let (v, r3) ← parseV fuel (c2 :: r2)
            let (vs, r4) ← parseATail fuel r3
            some (.arr (v :: vs), r4)
      else if c = '{' then
        match skipWs r with
        | [] => none
        | c2 :: r2 =>
          if c2 = '}' then some (.obj [], r2)
          else if c2 = '"' then do
            let (k, r3) ← parseStrBody r2
            let (v, r4) ← parseColonV fuel r3
            let (fs, r5) ← parseOTail fuel r4
            some (.obj ((String.mk k, v) :: fs), r5)
          else none
      else if c = '-' then
        match r.span Char.isDigit with
        | (ds, r2) =>
          if ds.isEmpty then none
          else some (.num (-(Int.ofNat (digitsVal ds))), r2)
      else if c.isDigit then
        match (c :: r).span Char.isDigit with
        | (ds, r2) => some (.num (Int.ofNat (digitsVal ds)), r2)
      else none

def parseATail : Nat → List Char → Option (List JSVal × List Char)
  | 0, _ => none
  | fuel + 1, cs =>
    match skipWs cs with
    | [] => none
    | c :: r =>
      if c = ']' then some ([], r)
      else if c = ',' then do
        let (v, r2) ← parseV fuel r
        let (vs, r3) ← parseATail fuel r2
        some (v :: vs, r3)
      else none

def parseColonV : Nat → List Char → Option (JSVal × List Char)
  | 0, _ => none
  | fuel + 1, cs =>
    match skipWs cs with
    | [] => none
    | c :: r => if c = ':' then parseV fuel r else none

def parseOTail : Nat → List Char → Option (List (String × JSVal) × List Char)
  | 0, _ => none
  | fuel + 1, cs =>
    match skipWs cs with
    | [] => none
    | c :: r =>
      if c = '}' then some ([], r)
      else if c = ',' then
        match skipWs r with
        | [] => none
        | c2 :: r2 =>
          if c2 = '"' then do
            let (k, r3) ← parseStrBody r2
            let (v, r4) ← parseColonV fuel r3
            let (fs, r5) ← parseOTail fuel r4
            some ((String.mk k, v) :: fs, r5)
          else none
      else none

end

/-- Whole string JSON.parse model: parse one value, then require only
trailing whitespace, as JSON.parse does. -/
def jsonParseF (s : String) : Option JSVal :=
  match parseV (s.data.length + 1) s.data with
  | some (v, rest) => if skipWs rest = [] then some v else none
  | none => none

example : jsonParseF "123" = some (.num 123) := rfl
example : jsonParseF " true " = some (.bool true) := rfl
example : jsonParseF "abc" = none := rfl
example : jsonParseF "[1,\"x\"]" = some (.arr [.num 1, .str "x"]) := rfl

/-! Helper lemmas for the printer and parser roundtrip. -/

def nonDigitHead : List Char → Bool
  | [] => true
  | c :: _ => !c.isDigit

theorem skipWs_cons_of_not (c : Char) (l : List Char) (h : isWs c = false) :
    skipWs (c :: l) = c :: l := by
  simp [skipWs, List.dropWhile, h]

theorem isWs_of_isDigit (c : Char) (h : c.isDigit = true) : isWs c = false := by
  simp only [isWs, Bool.or_eq_false_iff, decide_eq_false_iff_not]
  refine ⟨⟨⟨?_, ?_⟩, ?_⟩, ?_⟩ <;> rintro rfl <;> exact absurd h (by decide)

theorem ne_of_isDigit (c : Char) (h : c.isDigit = true) :
    c ≠ 'n' ∧ c ≠ 't' ∧ c ≠ 'f' ∧ c ≠ '"' ∧ c ≠ '[' ∧ c ≠ '{' ∧ c ≠ '-' ∧
      c ≠ ']' ∧ c ≠ '}' ∧ c ≠ ',' := by
  refine ⟨?_, ?_, ?_, ?_, ?_, ?_, ?_, ?_, ?_, ?_⟩ <;> rintro rfl <;>
    exact absurd h (by decide)

theorem takeWhile_dropWhile_append (p : Char → Bool) (l1 l2 : List Char)
    (h1 : ∀ c ∈ l1, p c = true)
    (h2 : ∀ c t, l2 = c :: t → p c = false) :
    (l1 ++ l2).takeWhile p = l1 ∧ (l1 ++ l2).dropWhile p = l2 := by
  induction l1 with
  | nil =>
    simp only [List.nil_append]
    cases l2 with
    | nil => simp
    | cons c t => simp [List.takeWhile, List.dropWhile, h2 c t rfl]
  | cons a t ih =>
    have ha : p a = true := h1 a (by simp)
    have := ih (fun c hc => h1 c (by simp [hc]))
    simp [List.takeWhile, List.dropWhile, ha, this.1, this.2]

theorem span_digits_append (ds rest : List Char)
    (h1 : ∀ c ∈ ds, c.isDigit = true) (h2 : nonDigitHead rest = true) :
    (ds ++ rest).span Char.isDigit = (ds, rest) := by
  have h2m : ∀ c t, rest = c :: t → Char.isDigit c = false := by
    intro c t hct
    subst hct
    simpa [nonDigitHead] using h2
  have := takeWhile_dropWhile_append Char.isDigit ds rest h1 h2m
  rw [List.span_eq_take_drop, this.1, this.2]

theorem hexDigitChar_spec (d : Nat) (h : d < 16) :
    isHexDigitB (hexDigitChar d) = true ∧ hexVal (hexDigitChar d) = d := by
  interval_cases d <;> exact ⟨by decide, by decide⟩

theorem stringMk_data (s : String) : String.mk s.data = s := rfl

theorem escChars_cons (c : Char) (cs : List Char) :
    escChars (c :: cs) = escChar c ++ escChars cs := by
  simp [escChars]

/-- Parsing the escaped body of a string literal recovers the original
characters. -/
theorem parseStrBody_escChars (cs rest : List Char) :
    parseStrBody (escChars cs ++ '"' :: rest) = some (cs, rest) := by
  induction cs with
  | nil =>
    rw [show escChars [] = [] from rfl, List.nil_append, parseStrBody.eq_def]
    simp +decide
  | cons c t ih =>
    rw [escChars_cons, List.append_assoc]
    by_cases hq : c = '"'
    · subst hq
      rw [show escChar '"' = ['\\', '"'] from by decide, List.cons_append,
        List.cons_append, List.nil_append, parseStrBody.eq_def]
      simp +decide [ih, escCode]
    · by_cases hb : c = '\\'
      · subst hb
        rw [show escChar '\\' = ['\\', '\\'] from by decide, List.cons_append,
          List.cons_append, List.nil_append, parseStrBody.eq_def]
        simp +decide [ih, escCode]
      · by_cases hc : c.toNat < 32
        · have h1 := hexDigitChar_spec (c.toNat / 16) (by omega)
          have h2 := hexDigitChar_spec (c.toNat % 16) (by omega)
          rw [show escChar c =
              ['\\', 'u', '0', '0', hexDigitChar (c.toNat / 16), hexDigitChar (c.toNat % 16)]
            from by rw [escChar, if_neg hq, if_neg hb, if_pos hc]]
          simp only [List.cons_append, List.nil_append]
          rw [parseStrBody.eq_def]
          simp +decide [h1.1, h2.1, ih]
          rw [h1.2, h2.2]
          have hval : ((0 * 16 + 0) * 16 + c.toNat / 16) * 16 + c.toNat % 16 = c.toNat := by
            omega
          rw [show hexVal '0' = 0 from by decide]
          rw [hval, Char.ofNat_toNat]
        · rw [show escChar c = [c] from by rw [escChar, if_neg hq, if_neg hb, if_neg hc]]
          simp only [List.cons_append, List.nil_append]
          rw [parseStrBody.eq_def]
          simp [hq, hb, ih]

theorem isUndefB_false_of_noUndef (v : JSVal) (h : noUndefB v = true) :
    isUndefB v = false := by
  cases v <;> simp_all [noUndefB, isUndefB]

theorem emitOGo_cons_of_false (st : Bool) (k : String) (v : JSVal)
    (fs : List (String × JSVal)) (h : isUndefB v = false) :
    emitOGo st ((k, v) :: fs) =
      (if st then [','] else []) ++
        ('"' :: (escChars k.data ++ ('"' :: ':' :: (emitV v ++ emitOGo true fs)))) := by
  rw [emitOGo, if_neg (by simp [h])]
  simp [List.append_assoc]

theorem nonDigitHead_emitATail (xs : List JSVal) (rest : List Char) :
    nonDigitHead (emitATail xs ++ rest) = true := by
  cases xs with
  | nil => rw [emitATail] ; rfl
  | cons y ys => rw [emitATail] ; rfl

theorem nonDigitHead_emitOGo (fs : List (String × JSVal)) (rest : List Char)
    (h : noUndefF fs = true) :
    nonDigitHead (emitOGo true fs ++ rest) = true := by
  cases fs with
  | nil => rw [emitOGo] ; rfl
  | cons p fs2 =>
    obtain ⟨k, v⟩ := p
    have hv : isUndefB v = false := by
      apply isUndefB_false_of_noUndef
      simp [noUndefF] at h
      exact h.1
    rw [emitOGo_cons_of_false true k v fs2 hv]
    rfl

theorem needV_pos (v : JSVal) : 1 ≤ needV v := by
  cases v with
  | arr xs =>
    cases xs with
    | nil => simp [needV]
    | cons x xs2 => simp [needV]
  | obj fs =>
    cases fs with
    | nil => simp [needV]
    | cons p fs2 => obtain ⟨k, w⟩ := p ; simp [needV]
  | _ => simp [needV]

theorem needATail_pos (xs : List JSVal) : 1 ≤ needATail xs := by
  cases xs with
  | nil => simp [needATail]
  | cons y ys => simp [needATail]

theorem needOTail_pos (fs : List (String × JSVal)) : 1 ≤ needOTail fs := by
  cases fs with
  | nil => simp [needOTail]
  | cons p fs2 => obtain ⟨k, w⟩ := p ; simp [needOTail]

theorem emitV_head_facts (v : JSVal) :
    ∃ c cs, emitV v = c :: cs ∧ isWs c = false ∧ c ≠ ']' ∧ c ≠ '}' ∧ c ≠ ',' := by
  cases v with
  | null => exact ⟨'n', _, rfl, by decide, by decide, by decide, by decide⟩
  | undef => exact ⟨'n', _, rfl, by decide, by decide, by decide, by decide⟩
  | bool b =>
    cases b
    · exact ⟨'f', _, rfl, by decide, by decide, by decide, by decide⟩
    · exact ⟨'t', _, rfl, by decide, by decide, by decide, by decide⟩
  | num n =>
    by_cases hn : n < 0
    · refine ⟨'-', natChars n.natAbs, ?_, by decide, by decide, by decide, by decide⟩
      rw [emitV, intChars, if_pos hn]
    · cases hnc : natChars n.natAbs with
      | nil => exact absurd hnc (natChars_ne_nil _)
      | cons d ds =>
        have hd : d.isDigit = true := natChars_digits _ d (by rw [hnc] ; simp)
        obtain ⟨_, _, _, _, _, _, _, h8, h9, h10⟩ := ne_of_isDigit d hd
        refine ⟨d, ds, ?_, isWs_of_isDigit d hd, h8, h9, h10⟩
        rw [emitV, intChars, if_neg hn, hnc]
  | str s => exact ⟨'"', _, rfl, by decide, by decide, by decide, by decide⟩
  | arr xs =>
    cases xs with
    | nil => exact ⟨'[', _, rfl, by decide, by decide, by decide, by decide⟩
    | cons x xs2 => exact ⟨'[', _, rfl, by decide, by decide, by decide, by decide⟩
  | obj fs => exact ⟨'{', _, rfl, by decide, by decide, by decide, by decide⟩


/-! Dispatch lemmas: one reduction step of the parser on each token
shape.  With concrete head characters these hold by definitional
unfolding. -/

theorem parseV_null_step (f : Nat) (r : List Char) :
    parseV (f + 1) ('n' :: 'u' :: 'l' :: 'l' :: r) = some (.null, r) := rfl

theorem parseV_true_step (f : Nat) (r : List Char) :
    parseV (f + 1) ('t' :: 'r' :: 'u' :: 'e' :: r) = some (.bool true, r) := rfl

theorem parseV_false_step (f : Nat) (r : List Char) :
    parseV (f + 1) ('f' :: 'a' :: 'l' :: 's' :: 'e' :: r) = some (.bool false, r) := rfl

theorem parseV_quote_step (f : Nat) (r : List Char) :
    parseV (f + 1) ('"' :: r) =
      (parseStrBody r).map (fun p => (.str (String.mk p.1), p.2)) := rfl

theorem parseV_minus_step (f : Nat) (r : List Char) :
    parseV (f + 1) ('-' :: r) =
      (match r.span Char.isDigit with
       | (ds, r2) =>
         if ds.isEmpty then none
         else some (.num (-(Int.ofNat (digitsVal ds))), r2)) := rfl

theorem parseV_digit_step (f : Nat) (c : Char) (r : List Char) (hd : c.isDigit = true) :
    parseV (f + 1) (c :: r) =
      (match (c :: r).span Char.isDigit with
       | (ds, r2) => some (.num (Int.ofNat (digitsVal ds)), r2)) := by
  obtain ⟨h1, h2, h3, h4, h5, h6, h7, _, _, _⟩ := ne_of_isDigit c hd
  rw [parseV]
  rw [skipWs_cons_of_not _ _ (isWs_of_isDigit c hd)]
  simp only [if_neg h1, if_neg h2, if_neg h3, if_neg h4, if_neg h5, if_neg h6,
    if_neg h7, hd]
  simp

theorem parseV_arr_nil_step (f : Nat) (r : List Char) :
    parseV (f + 1) ('[' :: ']' :: r) = some (.arr [], r) := rfl

theorem parseV_arr_cons_step (f : Nat) (c2 : Char) (r2 : List Char)
    (hws : isWs c2 = false) (hne : c2 ≠ ']') :
    parseV (f + 1) ('[' :: c2 :: r2) =
      (parseV f (c2 :: r2)).bind (fun p => (parseATail f p.2).bind
        fun q => some (.arr (p.1 :: q.1), q.2)) := by
  rw [parseV]
  rw [skipWs_cons_of_not _ _ (by decide)]
  show (match skipWs (c2 :: r2) with
    | [] => none
    | c2 :: r2 =>
      if c2 = ']' then some (JSVal.arr [], r2)
      else do
        let p ← parseV f (c2 :: r2)
        let q ← parseATail f p.2
        some (JSVal.arr (p.1 :: q.1), q.2)) = _
  rw [skipWs_cons_of_not _ _ hws]
  simp only [if_neg hne]
  rfl

theorem parseV_obj_nil_step (f : Nat) (r : List Char) :
    parseV (f + 1) ('{' :: '}' :: r) = some (.obj [], r) := rfl

theorem parseV_obj_key_step (f : Nat) (r : List Char) :
    parseV (f + 1) ('{' :: '"' :: r) =
      (parseStrBody r).bind (fun p => (parseColonV f p.2).bind
        fun q => (parseOTail f q.2).bind
        fun w => some (.obj ((String.mk p.1, q.1) :: w.1), w.2)) := rfl

theorem parseColonV_step (f : Nat) (r : List Char) :
    parseColonV (f + 1) (':' :: r) = parseV f r := rfl

theorem parseATail_nil_step (f : Nat) (r : List Char) :
    parseATail (f + 1) (']' :: r) = some ([], r) := rfl

theorem parseATail_comma_step (f : Nat) (r : List Char) :
    parseATail (f + 1) (',' :: r) =
      (parseV f r).bind (fun p => (parseATail f p.2).bind
        fun q => some (p.1 :: q.1, q.2)) := rfl

theorem parseOTail_nil_step (f : Nat) (r : List Char) :
    parseOTail (f + 1) ('}' :: r) = some ([], r) := rfl

theorem parseOTail_comma_step (f : Nat) (r : List Char) :
    parseOTail (f + 1) (',' :: '"' :: r) =
      (parseStrBody r).bind (fun p => (parseColonV f p.2).bind
        fun q => (parseOTail f q.2).bind
        fun w => some ((String.mk p.1, q.1) :: w.1, w.2)) := rfl

set_option maxHeartbeats 1000000 in
/-- Parsing the printed form of a JSON representable value recovers the
value: the roundtrip of the JSON.stringify and JSON.parse models. -/
theorem parse_emit (f : Nat) :
    (∀ v rest, noUndefB v = true → needV v ≤ f → nonDigitHead rest = true →
      parseV f (emitV v ++ rest) = some (v, rest)) ∧
    (∀ xs rest, noUndefL xs = true → needATail xs ≤ f → nonDigitHead rest = true →
      parseATail f (emitATail xs ++ rest) = some (xs, rest)) ∧
    (∀ fs rest, noUndefF fs = true → needOTail fs ≤ f → nonDigitHead rest = true →
      parseOTail f (emitOGo true fs ++ rest) = some (fs, rest)) := by
  induction f using Nat.strong_induction_on with
  | _ f ih =>
  obtain _ | f := f
  · refine ⟨fun v rest _ h2 _ => ?_, fun xs rest _ h2 _ => ?_, fun fs rest _ h2 _ => ?_⟩
    · exact absurd h2 (by have := needV_pos v ; omega)
    · exact absurd h2 (by have := needATail_pos xs ; omega)
    · exact absurd h2 (by have := needOTail_pos fs ; omega)
  refine ⟨?_, ?_, ?_⟩
  · intro v rest hnu hf hrest
    cases v with
    | null =>
      rw [show emitV .null ++ rest = 'n' :: 'u' :: 'l' :: 'l' :: rest from rfl]
      exact parseV_null_step f rest
    | undef => exact absurd hnu (by decide)
    | bool b =>
      cases b
      · rw [show emitV (.bool false) ++ rest = 'f' :: 'a' :: 'l' :: 's' :: 'e' :: rest from rfl]
        exact parseV_false_step f rest
      · rw [show emitV (.bool true) ++ rest = 't' :: 'r' :: 'u' :: 'e' :: rest from rfl]
        exact parseV_true_step f rest
    | num n =>
      by_cases hn : n < 0
      · rw [show emitV (.num n) = '-' :: natChars n.natAbs from by
          rw [emitV, intChars, if_pos hn]]
        rw [List.cons_append, parseV_minus_step]
        rw [span_digits_append _ _ (natChars_digits _) hrest]
        show (if (natChars n.natAbs).isEmpty = true then none
          else some (JSVal.num (-Int.ofNat (digitsVal (natChars n.natAbs))), rest))
          = some (JSVal.num n, rest)
        rw [show (natChars n.natAbs).isEmpty = false from by
          cases hnc : natChars n.natAbs with
          | nil => exact absurd hnc (natChars_ne_nil _)
          | cons a l => rfl]
        rw [natChars_val]
        have hofn : -(Int.ofNat n.natAbs) = n := by
          rw [Int.ofNat_eq_natCast]
          omega
        rw [if_neg (by simp), hofn]
      · cases hnc : natChars n.natAbs with
        | nil => exact absurd hnc (natChars_ne_nil _)
        | cons d ds =>
          have hd : d.isDigit = true := natChars_digits _ d (by rw [hnc] ; simp)
          rw [show emitV (.num n) = d :: ds from by rw [emitV, intChars, if_neg hn, hnc]]
          rw [List.cons_append, parseV_digit_step f d _ hd]
          rw [← List.cons_append, show (d :: ds) = natChars n.natAbs from hnc.symm]
          rw [span_digits_append _ _ (natChars_digits _) hrest]
          show some (JSVal.num (Int.ofNat (digitsVal (natChars n.natAbs))), rest)
            = some (JSVal.num n, rest)
          rw [natChars_val]
          have hofn : Int.ofNat n.natAbs = n := by
            rw [Int.ofNat_eq_natCast]
            omega
          rw [hofn]
    | str s =>
      rw [show emitV (.str s) ++ rest = '"' :: (escChars s.data ++ ('"' :: rest)) from by
        rw [emitV] ; simp [List.append_assoc]]
      rw [parseV_quote_step, parseStrBody_escChars]
      simp [stringMk_data]
    | arr xs =>
      cases xs with
      | nil =>
        rw [show emitV (.arr []) ++ rest = '[' :: ']' :: rest from rfl]
        exact parseV_arr_nil_step f rest
      | cons x xs2 =>
        have hnu2 : noUndefB x = true ∧ noUndefL xs2 = true := by
          rw [show noUndefB (.arr (x :: xs2)) = noUndefL (x :: xs2) from by
            rw [noUndefB]] at hnu
          simp [noUndefL] at hnu
          exact hnu
        have hf2 : needV x ≤ f ∧ needATail xs2 ≤ f := by
          rw [show needV (.arr (x :: xs2)) = 1 + max (needV x) (needATail xs2) from by
            rw [needV]] at hf
          constructor <;> omega
        obtain ⟨cx, csx, hcx, hws, hne1, hne2, hne3⟩ := emitV_head_facts x
        rw [show emitV (.arr (x :: xs2)) ++ rest
            = '[' :: (emitV x ++ (emitATail xs2 ++ rest)) from by
          rw [emitV] ; simp [List.append_assoc]]
        rw [hcx, List.cons_append, parseV_arr_cons_step f cx _ hws hne1]
        rw [← List.cons_append, ← hcx]
        rw [(ih f (by omega)).1 x (emitATail xs2 ++ rest) hnu2.1 hf2.1
          (nonDigitHead_emitATail xs2 rest)]
        simp only [Option.some_bind]
        rw [(ih f (by omega)).2.1 xs2 rest hnu2.2 hf2.2 hrest]
        rfl
    | obj fs =>
      cases fs with
      | nil =>
        rw [show emitV (.obj []) ++ rest = '{' :: '}' :: rest from rfl]
        exact parseV_obj_nil_step f rest
      | cons p fs2 =>
        obtain ⟨k, v⟩ := p
        have hnu2 : noUndefB v = true ∧ noUndefF fs2 = true := by
          rw [show noUndefB (.obj ((k, v) :: fs2)) = noUndefF ((k, v) :: fs2) from by
            rw [noUndefB]] at hnu
          simp [noUndefF] at hnu
          exact hnu
        have hf2 : 1 + needV v ≤ f ∧ needOTail fs2 ≤ f := by
          rw [show needV (.obj ((k, v) :: fs2)) = 1 + max (1 + needV v) (needOTail fs2) from by
            rw [needV]] at hf
          constructor <;> omega
        obtain _ | g := f
        · exact absurd hf2.1 (by have := needV_pos v ; omega)
        rw [show emitV (.obj ((k, v) :: fs2)) ++ rest
            = '{' :: '"' :: (escChars k.data
                ++ ('"' :: ':' :: (emitV v ++ (emitOGo true fs2 ++ rest)))) from by
          rw [emitV, emitOGo_cons_of_false false k v fs2
            (isUndefB_false_of_noUndef v hnu2.1)]
          simp [List.append_assoc]]
        rw [parseV_obj_key_step, parseStrBody_escChars]
        simp only [Option.some_bind]
        rw [parseColonV_step]
        rw [(ih g (by omega)).1 v (emitOGo true fs2 ++ rest) hnu2.1 (by omega)
          (nonDigitHead_emitOGo fs2 rest hnu2.2)]
        simp only [Option.some_bind]
        rw [(ih (g + 1) (by omega)).2.2 fs2 rest hnu2.2 (by omega) hrest]
        simp [stringMk_data]
  · intro xs rest hnu hf hrest
    cases xs with
    | nil =>
      rw [show emitATail [] ++ rest = ']' :: rest from rfl]
      exact parseATail_nil_step f rest
    | cons y ys =>
      have hnu2 : noUndefB y = true ∧ noUndefL ys = true := by
        simp [noUndefL] at hnu
        exact hnu
      have hf2 : needV y ≤ f ∧ needATail ys ≤ f := by
        rw [show needATail (y :: ys) = 1 + max (needV y) (needATail ys) from by
          rw [needATail]] at hf
        constructor <;> omega
      rw [show emitATail (y :: ys) ++ rest = ',' :: (emitV y ++ (emitATail ys ++ rest)) from by
        rw [emitATail] ; simp [List.append_assoc]]
      rw [parseATail_comma_step]
      rw [(ih f (by omega)).1 y (emitATail ys ++ rest) hnu2.1 hf2.1
        (nonDigitHead_emitATail ys rest)]
      simp only [Option.some_bind]
      rw [(ih f (by omega)).2.1 ys rest hnu2.2 hf2.2 hrest]
      rfl
  · intro fs rest hnu hf hrest
    cases fs with
    | nil =>
      rw [show emitOGo true [] ++ rest = '}' :: rest from rfl]
      exact parseOTail_nil_step f rest
    | cons p fs2 =>
      obtain ⟨k, v⟩ := p
      have hnu2 : noUndefB v = true ∧ noUndefF fs2 = true := by
        simp [noUndefF] at hnu
        exact hnu
      have hf2 : 1 + needV v ≤ f ∧ needOTail fs2 ≤ f := by
        rw [show needOTail ((k, v) :: fs2) = 1 + max (1 + needV v) (needOTail fs2) from by
          rw [needOTail]] at hf
        constructor <;> omega
      obtain _ | g := f
      · exact absurd hf2.1 (by have := needV_pos v ; omega)
      rw [show emitOGo true ((k, v) :: fs2) ++ rest
          = ',' :: '"' :: (escChars k.data
              ++ ('"' :: ':' :: (emitV v ++ (emitOGo true fs2 ++ rest)))) from by
        rw [emitOGo_cons_of_false true k v fs2 (isUndefB_false_of_noUndef v hnu2.1)]
        simp [List.append_assoc]]
      rw [parseOTail_comma_step, parseStrBody_escChars]
      simp only [Option.some_bind]
      rw [parseColonV_step]
      rw [(ih g (by omega)).1 v (emitOGo true fs2 ++ rest) hnu2.1 (by omega)
        (nonDigitHead_emitOGo fs2 rest hnu2.2)]
      simp only [Option.some_bind]
      rw [(ih (g + 1) (by omega)).2.2 fs2 rest hnu2.2 (by omega) hrest]
      simp [stringMk_data]

theorem need_le_len_aux (n : Nat) :
    (∀ v, needV v ≤ n → noUndefB v = true → needV v ≤ (emitV v).length) ∧
    (∀ xs, needATail xs ≤ n → noUndefL xs = true →
      needATail xs ≤ (emitATail xs).length) ∧
    (∀ fs, needOTail fs ≤ n → noUndefF fs = true →
      needOTail fs ≤ (emitOGo true fs).length) := by
  induction n using Nat.strong_induction_on with
  | _ n ih =>
  refine ⟨?_, ?_, ?_⟩
  · intro v hn hnu
    cases v with
    | null => simp [needV, emitV, nullChars]
    | undef => exact absurd hnu (by decide)
    | bool b => cases b <;> simp [needV, emitV, trueChars, falseChars]
    | num m =>
      have hne : needV (.num m) = 1 := by rw [needV] <;> simp
      rw [hne, emitV, intChars]
      by_cases hm : m < 0
      · rw [if_pos hm]
        simp
      · rw [if_neg hm]
        cases hnc : natChars m.natAbs with
        | nil => exact absurd hnc (natChars_ne_nil _)
        | cons d ds => simp
    | str s =>
      have hne : needV (.str s) = 1 := by rw [needV] <;> simp
      rw [hne, emitV]
      simp
    | arr xs =>
      cases xs with
      | nil => simp [needV, emitV]
      | cons x xs2 =>
        have hx : noUndefB x = true ∧ noUndefL xs2 = true := by
          rw [show noUndefB (.arr (x :: xs2)) = noUndefL (x :: xs2) from by
            rw [noUndefB]] at hnu
          simp [noUndefL] at hnu
          exact hnu
        have hnv : needV (.arr (x :: xs2)) = 1 + max (needV x) (needATail xs2) := by
          rw [needV]
        have h1 : needV x ≤ (emitV x).length :=
          (ih (needV x) (by omega)).1 x le_rfl hx.1
        have h2 : needATail xs2 ≤ (emitATail xs2).length :=
          (ih (needATail xs2) (by omega)).2.1 xs2 le_rfl hx.2
        rw [hnv, show emitV (.arr (x :: xs2)) = '[' :: (emitV x ++ emitATail xs2) from by
          rw [emitV]]
        simp only [List.length_cons, List.length_append]
        omega
    | obj fs =>
      cases fs with
      | nil => simp [needV, emitV, emitOGo]
      | cons p fs2 =>
        obtain ⟨k, v⟩ := p
        have hx : noUndefB v = true ∧ noUndefF fs2 = true := by
          rw [show noUndefB (.obj ((k, v) :: fs2)) = noUndefF ((k, v) :: fs2) from by
            rw [noUndefB]] at hnu
          simp [noUndefF] at hnu
          exact hnu
        have hnv : needV (.obj ((k, v) :: fs2))
            = 1 + max (1 + needV v) (needOTail fs2) := by rw [needV]
        have h1 : needV v ≤ (emitV v).length :=
          (ih (needV v) (by omega)).1 v le_rfl hx.1
        have h2 : needOTail fs2 ≤ (emitOGo true fs2).length :=
          (ih (needOTail fs2) (by omega)).2.2 fs2 le_rfl hx.2
        rw [hnv, show emitV (.obj ((k, v) :: fs2)) = '{' :: emitOGo false ((k, v) :: fs2)
          from by rw [emitV]]
        rw [emitOGo_cons_of_false false k v fs2 (isUndefB_false_of_noUndef v hx.1)]
        simp only [if_neg (by decide : ¬False), List.nil_append, List.length_cons,
          List.length_append]
        omega
  · intro xs hn hnu
    cases xs with
    | nil => simp [needATail, emitATail]
    | cons y ys =>
      have hx : noUndefB y = true ∧ noUndefL ys = true := by
        simp [noUndefL] at hnu
        exact hnu
      have hnv : needATail (y :: ys) = 1 + max (needV y) (needATail ys) := by
        rw [needATail]
      have h1 : needV y ≤ (emitV y).length :=
        (ih (needV y) (by omega)).1 y le_rfl hx.1
      have h2 : needATail ys ≤ (emitATail ys).length :=
        (ih (needATail ys) (by omega)).2.1 ys le_rfl hx.2
      rw [hnv, show emitATail (y :: ys) = ',' :: (emitV y ++ emitATail ys) from by
        rw [emitATail]]
      simp only [List.length_cons, List.length_append]
      omega
  · intro fs hn hnu
    cases fs with
    | nil => simp [needOTail, emitOGo]
    | cons p fs2 =>
      obtain ⟨k, v⟩ := p
      have hx : noUndefB v = true ∧ noUndefF fs2 = true := by
        simp [noUndefF] at hnu
        exact hnu
      have hnv : needOTail ((k, v) :: fs2) = 1 + max (1 + needV v) (needOTail fs2) := by
        rw [needOTail]
      have h1 : needV v ≤ (emitV v).length :=
        (ih (needV v) (by omega)).1 v le_rfl hx.1
      have h2 : needOTail fs2 ≤ (emitOGo true fs2).length :=
        (ih (needOTail fs2) (by omega)).2.2 fs2 le_rfl hx.2
      rw [hnv, emitOGo_cons_of_false true k v fs2 (isUndefB_false_of_noUndef v hx.1)]
      simp only [if_pos trivial, List.length_cons, List.length_append,
        List.singleton_append]
      omega

theorem needV_le_len (v : JSVal) (h : noUndefB v = true) :
    needV v ≤ (emitV v).length :=
  (need_le_len_aux (needV v)).1 v le_rfl h

/-- Whole string roundtrip for the JSON codec model. -/
theorem jsonParseF_emit (v : JSVal) (h : noUndefB v = true) :
    jsonParseF (String.mk (emitV v)) = some v := by
  rw [jsonParseF]
  rw [show (String.mk (emitV v)).data = emitV v from rfl]
  have hlen : needV v ≤ (emitV v).length + 1 := by
    have := needV_le_len v h
    omega
  have hpe := (parse_emit ((emitV v).length + 1)).1 v [] h hlen (by rfl)
  rw [show emitV v ++ [] = emitV v from by simp] at hpe
  rw [hpe]
  rfl

/-!
Value Codec (Database.js lines 196 to 232).

`encryptValue` turns a value into the stored leaf: null and undefined are
returned unchanged and never encrypted; otherwise the value is serialized
(`JSON.stringify` for objects and arrays, the `String(...)` conversion for
the other types), compressed, base64 encoded and encrypted.  The composite
of compression, base64 and cipher is the collaborator `E`; its inverse
chain inside `decryptValue` (decrypt, base64 decode, inflate, toString) is
the collaborator `D`.  A `none` result models a throwing step, which the
try/catch of the code turns into returning the input unchanged.

A stored leaf is either a raw value that bypassed or survived encryption
(`StoreVal.raw`) or an encrypted token string (`StoreVal.tok`).  In JS a
token is just a string; the constructor split records the fact that real
ciphertext is disjoint from the raw values the code stores (a raw string
fed to `decrypt` throws and is returned unchanged, which `decryptValue`
on `raw` reproduces).
-/

/-- The serialization step of encryptValue:
`typeof value === "object" ? JSON.stringify(value) : String(value)`. -/
def stringValue : JSVal → String
  | .obj fs => String.mk (emitV (.obj fs))
  | .arr xs => String.mk (emitV (.arr xs))
  | .num n => String.mk (intChars n)
  | .bool true => "true"
  | .bool false => "false"
  | .str s => s
  | .null => "null"
  | .undef => "undefined"

inductive StoreVal where
  | raw (v : JSVal)
  | tok (t : String)

/-- Database.js lines 196 to 210.  `E` is the compress plus base64 plus
encrypt collaborator chain; `none` is a thrown error, caught by the code,
which then returns the input value unchanged. -/
def encryptValue (E : String → Option String) (v : JSVal) : StoreVal :=
  match v with
  | .null => .raw .null
  | .undef => .raw .undef
  | w =>
    match E (stringValue w) with
    | some t => .tok t
    | none => .raw w

/-- Database.js lines 212 to 232.  A non string or falsy input is returned
unchanged (`raw` values and the empty token).  Otherwise the token is
decrypted and inflated through `D`; the resulting text is JSON.parsed,
falling back to the raw text when parsing fails; a failure of `D` is
caught and the input token returned unchanged (as the string it is). -/
def decryptValue (D : String → Option String) : StoreVal → JSVal
  | .raw v => v
  | .tok t =>
    if t = "" then .str t
    else
      match D t with
      | some plain =>
        match jsonParseF plain with
        | some j => j
        | none => .str plain
      | none => .str t

/-- For every value other than null, undefined and strings, the
serialization used by encryptValue agrees with the JSON printer. -/
theorem stringValue_eq_emit (v : JSVal)
    (h1 : v ≠ .null) (h2 : v ≠ .undef) (h3 : ∀ s, v ≠ .str s) :
    stringValue v = String.mk (emitV v) := by
  cases v with
  | null => exact absurd rfl h1
  | undef => exact absurd rfl h2
  | str s => exact absurd rfl (h3 s)
  | bool b => cases b <;> rfl
  | num n => rfl
  | arr xs => rfl
  | obj fs => rfl

/-- Roundtrip through the codec for values that are serialized with the
JSON printer (everything except null, undefined and strings). -/
theorem roundtrip_tok (E D : String → Option String)
    (hinv : ∀ a b, E a = some b → D b = some a)
    (hne : ∀ a, E a ≠ some "")
    (v : JSVal) (h1 : v ≠ .null) (h2 : v ≠ .undef) (h3 : ∀ s, v ≠ .str s)
    (hnu : noUndefB v = true) :
    decryptValue D (encryptValue E v) = v := by
  have henc : encryptValue E v = (match E (stringValue v) with
      | some t => StoreVal.tok t
      | none => StoreVal.raw v) := by
    rw [encryptValue]
    · exact fun h => h1 h
    · exact fun h => h2 h
  rw [henc]
  cases hE : E (stringValue v) with
  | none => rfl
  | some t =>
    have ht : t ≠ "" := fun h => hne _ (h ▸ hE)
    rw [show decryptValue D (.tok t) = (if t = "" then .str t else
      match D t with
      | some plain =>
        match jsonParseF plain with
        | some j => j
        | none => .str plain
      | none => .str t) from by rw [decryptValue]]
    rw [if_neg ht, hinv _ _ hE, stringValue_eq_emit v h1 h2 h3]
    show (match jsonParseF (String.mk (emitV v)) with
      | some j => j
      | none => JSVal.str (String.mk (emitV v))) = v
    rw [jsonParseF_emit v hnu]

/-- Core codec roundtrip, shared by the claims about the codec and about
set and get.  `hinv` is the collaborator contract (decrypt inverts
encrypt); `hne` records that the cipher never produces an empty token
(the code would treat an empty token as falsy and skip decryption). -/
theorem decrypt_encrypt_core (E D : String → Option String)
    (hinv : ∀ a b, E a = some b → D b = some a)
    (hne : ∀ a, E a ≠ some "")
    (v : JSVal) (hnu : noUndefB v = true)
    (hstr : ∀ s, v = .str s → jsonParseF s = none) :
    decryptValue D (encryptValue E v) = v := by
  cases v with
  | null => rfl
  | undef => rfl
  | str s =>
    have henc : encryptValue E (.str s) = (match E (stringValue (.str s)) with
        | some t => StoreVal.tok t
        | none => StoreVal.raw (.str s)) := by
      rw [encryptValue]
      · exact fun h => by exact absurd h (by simp)
      · exact fun h => by exact absurd h (by simp)
    rw [henc]
    cases hE : E (stringValue (.str s)) with
    | none => rfl
    | some t =>
      have ht : t ≠ "" := fun h => hne _ (h ▸ hE)
      rw [show decryptValue D (.tok t) = (if t = "" then .str t else
        match D t with
        | some plain =>
          match jsonParseF plain with
          | some j => j
          | none => .str plain
        | none => .str t) from by rw [decryptValue]]
      rw [if_neg ht, hinv _ _ hE]
      show (match jsonParseF s with
        | some j => j
        | none => JSVal.str s) = JSVal.str s
      rw [hstr s rfl]
  | bool b =>
    cases b <;> exact roundtrip_tok E D hinv hne _ (by simp) (by simp)
      (fun s => by simp) hnu
  | num n =>
    exact roundtrip_tok E D hinv hne _ (by simp) (by simp) (fun s => by simp) hnu
  | arr xs =>
    exact roundtrip_tok E D hinv hne _ (by simp) (by simp) (fun s => by simp) hnu
  | obj fs =>
    exact roundtrip_tok E D hinv hne _ (by simp) (by simp) (fun s => by simp) hnu

theorem encryptValue_eq_match (E : String → Option String) (v : JSVal)
    (h1 : v ≠ .null) (h2 : v ≠ .undef) :
    encryptValue E v = (match E (stringValue v) with
      | some t => StoreVal.tok t
      | none => StoreVal.raw v) := by
  rw [encryptValue]
  · exact fun h => h1 h
  · exact fun h => h2 h

/-! A concrete collaborator pair for witnesses and counterexamples: the
cipher prepends one character, its inverse strips it.  It satisfies the
collaborator contract (decrypt inverts encrypt, ciphertext nonempty), and
every theorem parameterized over the pair is instantiated with it. -/

def cipherE (s : String) : Option String := some (String.mk ('c' :: s.data))

def cipherD (s : String) : Option String :=
  match s.data with
  | [] => none
  | _ :: t => some (String.mk t)

theorem cipherInv : ∀ a b, cipherE a = some b → cipherD b = some a := by
  intro a b h
  rw [cipherE] at h
  injection h with h
  rw [← h, cipherD]

theorem cipherNe : ∀ a, cipherE a ≠ some "" := by
  intro a h
  rw [cipherE] at h
  injection h with h
  have : (String.mk ('c' :: a.data)).data = ("" : String).data := by rw [h]
  exact List.noConfusion this

/-- Claim C3, counterexample: the round trip fails on the string "123".
The code serializes a string value as its raw text, and decode parses the
decrypted text with JSON.parse, so the string "123" comes back as the
number 123.  The concrete cipher pair stands in for the compress plus
encrypt collaborator chain; any pair satisfying the inverse contract gives
the same result. -/
theorem claim_C3_counterexample :
    decryptValue cipherD (encryptValue cipherE (.str "123")) = .num 123 ∧
      JSVal.num 123 ≠ JSVal.str "123" :=
  ⟨rfl, fun h => JSVal.noConfusion h⟩

/-- Claim C3, amended: for every supported structured value that contains
no undefined and is not a string whose text parses as JSON, decoding the
token produced by encoding the value yields the value again, for every
collaborator pair in which decryption inverts encryption and ciphertext
is nonempty.  (A string whose text parses as JSON comes back as the parsed
value instead, see the counterexample.) -/
theorem claim_C3_amended (E D : String → Option String)
    (hinv : ∀ a b, E a = some b → D b = some a)
    (hne : ∀ a, E a ≠ some "")
    (v : JSVal) (hnu : noUndefB v = true)
    (hstr : ∀ s, v = .str s → jsonParseF s = none) :
    decryptValue D (encryptValue E v) = v :=
  decrypt_encrypt_core E D hinv hne v hnu hstr

/-- Witness for claim C3 at a concrete input: an object value round trips
through the codec under the concrete cipher pair. -/
theorem claim_C3_witness :
    decryptValue cipherD (encryptValue cipherE (.obj [("a", .num 1)]))
      = .obj [("a", .num 1)] :=
  claim_C3_amended cipherE cipherD cipherInv cipherNe _
    (by simp [noUndefB, noUndefF]) (fun s h => absurd h (by simp))

/-- Claim C7: if the collaborator step of encryptValue fails the value is
returned unchanged and never encrypted; if the collaborator step of
decryptValue fails the token string is returned unchanged; null and
undefined pass through both operations unchanged and are never
encrypted.  (The operations are total functions in the model: returning
rather than raising is what the try/catch of the code does.) -/
theorem claim_C7 (E D : String → Option String) (v : JSVal) (t : String) :
    (E (stringValue v) = none → encryptValue E v = .raw v) ∧
    (D t = none → decryptValue D (.tok t) = .str t) ∧
    encryptValue E .null = .raw .null ∧
    encryptValue E .undef = .raw .undef ∧
    decryptValue D (.raw .null) = .null ∧
    decryptValue D (.raw .undef) = .undef := by
  refine ⟨?_, ?_, rfl, rfl, rfl, rfl⟩
  · intro hE
    cases v with
    | null => rfl
    | undef => rfl
    | bool b => rw [encryptValue_eq_match E _ (by simp) (by simp), hE]
    | num n => rw [encryptValue_eq_match E _ (by simp) (by simp), hE]
    | str s => rw [encryptValue_eq_match E _ (by simp) (by simp), hE]
    | arr xs => rw [encryptValue_eq_match E _ (by simp) (by simp), hE]
    | obj fs => rw [encryptValue_eq_match E _ (by simp) (by simp), hE]
  · intro hD
    by_cases ht : t = ""
    · subst ht
      rfl
    · rw [show decryptValue D (.tok t) = (if t = "" then .str t else
        match D t with
        | some plain =>
          match jsonParseF plain with
          | some j => j
          | none => .str plain
        | none => .str t) from by rw [decryptValue]]
      rw [if_neg ht, hD]

/-- Witness for claim C7 at concrete inputs: a failing collaborator leaves
the number five and the token "junk" unchanged, and null and undefined
pass through. -/
theorem claim_C7_witness :
    encryptValue (fun _ => none) (.num 5) = .raw (.num 5) ∧
    decryptValue (fun _ => none) (.tok "junk") = .str "junk" ∧
    encryptValue (fun _ => none) .null = .raw .null ∧
    decryptValue (fun _ => none) (.raw .undef) = .undef :=
  ⟨(claim_C7 (fun _ => none) (fun _ => none) (.num 5) "junk").1 rfl,
   (claim_C7 (fun _ => none) (fun _ => none) (.num 5) "junk").2.1 rfl,
   (claim_C7 (fun _ => none) (fun _ => none) (.num 5) "junk").2.2.1,
   (claim_C7 (fun _ => none) (fun _ => none) (.num 5) "junk").2.2.2.2.2⟩

/-!
Path Store and Table Engine (Database.js).

The in memory tree `this.data` is a JS object tree.  Inner nodes are
plain objects; leaves hold what `encryptValue` produced; the `_meta`
value installed by createTable is kept as structured metadata
(`Node.tmeta`), which only ever appears as the value of a `_meta` key.
Traversal into the interior of the metadata object, into rows that are
primitives, and into raw object leaves produced by a failed encryption is
not modelled; those paths return a dedicated `modelBoundary` error and
every theorem stays outside them.
-/

inductive Err where
  | keyRequired
  | tableMissing (t : String)
  | nameAndDataRequired
  | dataNotObject
  | missingColumns (cols : List String)
  | unknownColumns (cols : List String)
  | nullColumn (c : String)
  | typeMismatch (c : String) (expected : String) (actual : String)
  | belowMin (c : String)
  | aboveMax (c : String)
  | patternMismatch (c : String)
  | enumMismatch (c : String)
  | relationMissing (t : String) (value : String)
  | recordNotFound (key : String)
  | updateNotObject
  | typeError
  | modelBoundary (tag : String)
  | outOfFuel
deriving DecidableEq

/-- Validation rule set for one column: `{type?, min?, max?, pattern?, enum?}`. -/
structure VRule where
  vtype : Option String := none
  vmin : Option Int := none
  vmax : Option Int := none
  pattern : Option String := none
  venum : Option (List JSVal) := none

/-- Foreign key descriptor `{table, column}`. -/
structure RelSpec where
  table : String
  column : String

/-- The `_meta` object of a table. -/
structure Meta where
  columns : List String
  validations : List (String × VRule)
  indexes : List String
  relations : List (String × RelSpec)
  created : String
  rowCount : Nat

inductive Node where
  | leaf (sv : StoreVal)
  | node (fields : List (String × Node))
  | tmeta (m : Meta)

/-- The root object `this.data`. -/
abbrev DBState := List (String × Node)

/-- Row view used by the query engine: a decrypted flat object. -/
abbrev Row := List (String × JSVal)

/-- JS `String.prototype.split` with a one character separator,
structurally recursive so that it evaluates inside the kernel.
`"".split(sep)` is `[""]`, separators at the edges produce empty
segments, exactly as in JS. -/
def splitChars (sep : Char) : List Char → List (List Char)
  | [] => [[]]
  | c :: rest =>
    if c = sep then [] :: splitChars sep rest
    else
      match splitChars sep rest with
      | [] => [[c]]
      | g :: gs => (c :: g) :: gs

def splitStr (sep : Char) (s : String) : List String :=
  (splitChars sep s.data).map String.mk

theorem splitChars_ne_nil (sep : Char) (cs : List Char) : splitChars sep cs ≠ [] := by
  cases cs with
  | nil => simp [splitChars]
  | cons c rest =>
    rw [splitChars]
    by_cases hc : c = sep
    · simp [hc]
    · rw [if_neg hc]
      cases h : splitChars sep rest <;> simp

theorem splitStr_ne_nil (sep : Char) (s : String) : splitStr sep s ≠ [] := by
  rw [splitStr]
  intro h
  exact splitChars_ne_nil sep s.data (by simpa using h)

/-- JS object property read. -/
def alookup {α : Type} : List (String × α) → String → Option α
  | [], _ => none
  | (k, v) :: rest, key => if k = key then some v else alookup rest key

/-- JS object property write: updates in place, else appends (insertion
order of JS objects with non integer keys). -/
def aset {α : Type} : List (String × α) → String → α → List (String × α)
  | [], key, v => [(key, v)]
  | (k, w) :: rest, key, v =>
    if k = key then (k, v) :: rest else (k, w) :: aset rest key v

def akeys {α : Type} (l : List (String × α)) : List String := l.map (fun p => p.1)

def jsDisplayB : Bool → String
  | true => "true"
  | false => "false"

mutual

/-- The JS template conversion `String(v)` used when a value is spliced
into a key string. -/
def jsDisplay : JSVal → String
  | .null => "null"
  | .undef => "undefined"
  | .bool b => jsDisplayB b
  | .num n => String.mk (intChars n)
  | .str s => s
  | .arr xs => String.intercalate "," (jsDisplayL xs)
  | .obj _ => "[object Object]"

def jsDisplayL : List JSVal → List String
  | [] => []
  | x :: xs => jsDisplay x :: jsDisplayL xs

end

def ruleToJSVal (r : VRule) : JSVal :=
  .obj ((match r.vtype with | some ty => [("type", JSVal.str ty)] | none => []) ++
        (match r.vmin with | some m => [("min", JSVal.num m)] | none => []) ++
        (match r.vmax with | some m => [("max", JSVal.num m)] | none => []) ++
        (match r.pattern with | some p => [("pattern", JSVal.str p)] | none => []) ++
        (match r.venum with | some e => [("enum", JSVal.arr e)] | none => []))

/-- Rendering of the metadata object as the JS value it is (field order
as installed by createTable). -/
def metaToJSVal (m : Meta) : JSVal :=
  .obj [("columns", .arr (m.columns.map .str)),
        ("validations", .obj (m.validations.map (fun p => (p.1, ruleToJSVal p.2)))),
        ("indexes", .arr (m.indexes.map .str)),
        ("relations", .obj (m.relations.map
          (fun p => (p.1, .obj [("table", JSVal.str p.2.table),
                                ("column", JSVal.str p.2.column)])))),
        ("created", .str m.created),
        ("rowCount", .num m.rowCount)]

mutual

/-- The JS value a tree node denotes (tokens are strings). -/
def nodeToJSVal : Node → JSVal
  | .leaf (.raw v) => v
  | .leaf (.tok t) => .str t
  | .node fields => .obj (fieldsToJSVal fields)
  | .tmeta m => metaToJSVal m

def fieldsToJSVal : List (String × Node) → List (String × JSVal)
  | [] => []
  | (k, nd) :: rest => (k, nodeToJSVal nd) :: fieldsToJSVal rest

end

/-- JS truthiness of the value a node holds. -/
def nodeTruthy : Node → Bool
  | .leaf (.raw v) => v.jsTruthy
  | .leaf (.tok t) => t ≠ ""
  | .node _ => true
  | .tmeta _ => true

/-- The lookup `this.data[tableName]?._meta` (whatever value sits there,
not necessarily real metadata).  A primitive or missing table yields
undefined.  Raw object leaves from a failed encryption are outside the
model. -/
def metaNodeOf (s : DBState) (t : String) : Option Node :=
  match alookup s t with
  | some (.node fields) => alookup fields "_meta"
  | _ => none

def metaTruthyB (s : DBState) (t : String) : Bool :=
  match metaNodeOf s t with
  | some nd => nodeTruthy nd
  | none => false

def svNullish : StoreVal → Bool
  | .raw .null => true
  | .raw .undef => true
  | _ => false

/-- The segment walk of `get` (lines 304 to 312): absent key or a
null/undefined node answer `none` (the caller returns the default); the
`in` operator on a non null primitive throws a TypeError. -/
def walkNode : Node → List String → Except Err (Option Node)
  | cur, [] => .ok (some cur)
  | .node fields, k :: rest =>
    (match alookup fields k with
     | none => .ok none
     | some nxt => walkNode nxt rest)
  | .leaf sv, _ :: _ =>
    if svNullish sv then .ok none
    else
      (match sv with
       | .raw (.obj _) => .error (.modelBoundary "descent into an unencrypted object leaf")
       | .raw (.arr _) => .error (.modelBoundary "descent into an unencrypted array leaf")
       | _ => .error .typeError)
  | .tmeta _, _ :: _ => .error (.modelBoundary "descent into table metadata")

/-- decryptValue applied to a field of a row object: tokens decode,
plain objects pass through unchanged. -/
def decryptField (D : String → Option String) : Node → JSVal
  | .leaf sv => decryptValue D sv
  | .node f => nodeToJSVal (.node f)
  | .tmeta m => metaToJSVal m

def genericGet (D : String → Option String) (s : DBState) (ks : List String)
    (dflt : JSVal) : Except Err JSVal :=
  match walkNode (.node s) ks with
  | .error e => .error e
  | .ok none => .ok dflt
  | .ok (some (.leaf sv)) => .ok (decryptValue D sv)
  | .ok (some (.node f)) => .ok (nodeToJSVal (.node f))
  | .ok (some (.tmeta m)) => .ok (metaToJSVal m)

/-- Database.js lines 280 to 315: `get`.  A two segment key whose first
segment carries a truthy `_meta` takes the table fast path: `t._meta`
returns the metadata value itself (undecrypted), a present row is
decrypted field by field, an absent or falsy row yields the default.
Every other key walks the tree generically (getModel below). -/
def getTwoSeg (D : String → Option String) (s : DBState) (t r : String)
    (dflt : JSVal) : Except Err JSVal :=
  if r ≠ "" then
    if metaTruthyB s t then
      match metaNodeOf s t with
      | some mnd =>
        if r = "_meta" then .ok (nodeToJSVal mnd)
        else
          match alookup s t with
          | some (.node fields) =>
            (match alookup fields r with
             | none => .ok dflt
             | some rnd =>
               if nodeTruthy rnd then
                 match rnd with
                 | .node rf => .ok (.obj (rf.map (fun p => (p.1, decryptField D p.2))))
                 | _ => .error (.modelBoundary "object entries over a primitive row")
               else .ok dflt)
          | _ => .ok dflt
      | none => genericGet D s [t, r] dflt
    else genericGet D s [t, r] dflt
  else genericGet D s [t, r] dflt

def getModel (D : String → Option String) (s : DBState) (key : String)
    (dflt : JSVal) : Except Err JSVal :=
  if key = "" then .error .keyRequired
  else
    match splitStr '.' key with
    | [t, r] => getTwoSeg D s t r dflt
    | ks => genericGet D s ks dflt

/-- Strict equality (and the SameValueZero equality of
`Array.prototype.includes`) on the modelled values.  Two distinct object
or array literals are never reference equal in JS, so object comparisons
answer false; NaN is outside the model. -/
def jsStrictEqB : JSVal → JSVal → Bool
  | .null, .null => true
  | .undef, .undef => true
  | .bool a, .bool b => a == b
  | .num a, .num b => a == b
  | .str a, .str b => a == b
  | _, _ => false

def missingColsOf (m : Meta) (row : Row) : List String :=
  m.columns.filter (fun c => !(akeys row).contains c)

def extraColsOf (m : Meta) (row : Row) : List String :=
  (akeys row).filter (fun c => !m.columns.contains c)

/-- Per column rule checks of validateTableData (lines 689 to 725), in
declaration order of the validations object.  `rtest` is the RegExp
collaborator (`new RegExp(pattern).test(text)`).  The isNaN check is
vacuous over the integer number model. -/
def checkColumnRules (rtest : String → String → Bool) (row : Row) :
    List (String × VRule) → Except Err Unit
  | [] => .ok ()
  | (column, rules) :: rest => do
    match (alookup row column).getD .undef with
    | .null => .error (.nullColumn column)
    | .undef => .error (.nullColumn column)
    | v => do
      (match rules.vtype with
       | some ty =>
         if v.typeofStr ≠ ty then .error (.typeMismatch column ty v.typeofStr)
         else .ok ()
       | none => .ok ())
      (if rules.vtype = some "number" then
        match v with
        | .num x => do
          (match rules.vmin with
           | some mn => if x < mn then .error (.belowMin column) else .ok ()
           | none => .ok ())
          (match rules.vmax with
           | some mx => if mx < x then .error (.aboveMax column) else .ok ()
           | none => .ok ())
        | _ => .ok ()
      else .ok ())
      (match rules.pattern with
       | some pat =>
         if rules.vtype = some "string" then
           if rtest pat (jsDisplay v) then .ok () else .error (.patternMismatch column)
         else .ok ()
       | none => .ok ())
      (match rules.venum with
       | some lst =>
         if lst.any (fun e => jsStrictEqB e v) then .ok ()
         else .error (.enumMismatch column)
       | none => .ok ())
      checkColumnRules rtest row rest

/-- Relation checks of validateTableData (lines 727 to 735): a defined
value must resolve through `get` to a truthy record of the target table. -/
def checkRelations (D : String → Option String) (s : DBState) (row : Row) :
    List (String × RelSpec) → Except Err Unit
  | [] => .ok ()
  | (column, rel) :: rest =>
    match alookup row column with
    | none => checkRelations D s row rest
    | some .undef => checkRelations D s row rest
    | some v => do
      let related ← getModel D s (rel.table ++ "." ++ jsDisplay v) .null
      if related.jsTruthy then checkRelations D s row rest
      else .error (.relationMissing rel.table (jsDisplay v))

/-- Database.js lines 665 to 738: validateTableData.  The checks run in
order: argument guards, data shape, table existence, missing columns,
unknown columns, per column rules, relations. -/
def validateTableData (D : String → Option String) (rtest : String → String → Bool)
    (s : DBState) (t : String) (data : JSVal) : Except Err Unit :=
  if t = "" ∨ data.jsTruthy = false then .error .nameAndDataRequired
  else
    match data with
    | .obj row =>
      (match metaNodeOf s t with
       | none => .error (.tableMissing t)
       | some mnd =>
         if nodeTruthy mnd = false then .error (.tableMissing t)
         else
           match mnd with
           | .tmeta m => do
             (if (missingColsOf m row).isEmpty then .ok ()
              else .error (.missingColumns (missingColsOf m row)))
             (if (extraColsOf m row).isEmpty then .ok ()
              else .error (.unknownColumns (extraColsOf m row)))
             checkColumnRules rtest row m.validations
             checkRelations D s row m.relations
           | _ => .error .typeError)
    | .arr _ => .error .dataNotObject
    | _ => .error .dataNotObject

/-- Row object written by the table fast path of set: every field runs
through encryptValue. -/
def encryptRowNode (E : String → Option String) (row : Row) : Node :=
  .node (row.map (fun p => (p.1, Node.leaf (encryptValue E p.2))))

/-- The generic segment walk of `set` (lines 263 to 274): missing
intermediate containers are created, descending into a non object leaf
throws a TypeError (strict mode), the final segment is assigned the
encrypted leaf. -/
def setGo : List (String × Node) → List String → StoreVal →
    Except Err (List (String × Node))
  | _, [], _ => .error (.modelBoundary "empty path")
  | fields, [last], sv => .ok (aset fields last (.leaf sv))
  | fields, k :: rest, sv =>
    match alookup fields k with
    | none => do
      let sub ← setGo [] rest sv
      .ok (aset fields k (.node sub))
    | some (.node sub) => do
      let sub2 ← setGo sub rest sv
      .ok (aset fields k (.node sub2))
    | some (.leaf lv) =>
      (match lv with
       | .raw (.obj _) => .error (.modelBoundary "descent into an unencrypted object leaf")
       | .raw (.arr _) => .error (.modelBoundary "descent into an unencrypted array leaf")
       | _ => .error .typeError)
    | some (.tmeta _) => .error (.modelBoundary "write into table metadata")

def setGeneric (E : String → Option String) (s : DBState) (ks : List String)
    (v : JSVal) : Except Err (DBState × JSVal) := do
  let s2 ← setGo s ks (encryptValue E v)
  .ok (s2, v)

/-- The condition on which `set` takes the table fast path (line 241
together with the `_meta` truthiness test of line 242). -/
def setFastB (s : DBState) (ks : List String) : Bool :=
  match ks with
  | [t, r] => r ≠ "" && r ≠ "_meta" && metaTruthyB s t
  | _ => false

/-- Database.js lines 234 to 278: `set`.  A two segment key `t.r` with
`r` nonempty, `r` not `_meta` and a truthy `data[t]._meta` validates the
value as a row, encrypts it field by field, stores it and recomputes
`rowCount` as the number of non `_meta` keys of the table.  Every other
key is written through the generic walk with the whole value encrypted
into one leaf.  Returns the new state and the value (the JS return
value, with setTwoSeg holding the two segment branch). -/
def setTwoSeg (E D : String → Option String) (rtest : String → String → Bool)
    (s : DBState) (t r : String) (v : JSVal) : Except Err (DBState × JSVal) :=
  if r ≠ "" ∧ r ≠ "_meta" then
    if metaTruthyB s t then do
      let _ ← validateTableData D rtest s t v
      match v with
      | .obj row =>
        (match alookup s t with
         | some (.node fields) =>
           (match alookup fields "_meta" with
            | some (.tmeta m) =>
              let fields2 := aset fields r (encryptRowNode E row)
              let cnt := (fields2.filter (fun p => p.1 ≠ "_meta")).length
              let fields3 := aset fields2 "_meta" (.tmeta { m with rowCount := cnt })
              .ok (aset s t (.node fields3), v)
            | _ => .error (.modelBoundary "garbage metadata after validation"))
         | _ => .error (.modelBoundary "table vanished after validation"))
      | _ => .error (.modelBoundary "validated data not an object")
    else setGeneric E s [t, r] v
  else setGeneric E s [t, r] v

def setModel (E D : String → Option String) (rtest : String → String → Bool)
    (s : DBState) (key : String) (v : JSVal) : Except Err (DBState × JSVal) :=
  if key = "" then .error .keyRequired
  else
    match splitStr '.' key with
    | [t, r] => setTwoSeg E D rtest s t r v
    | ks => setGeneric E s ks v

/-! Query Engine (Database.js lines 787 to 830 and helpers). -/

def decryptRows (D : String → Option String) :
    List (String × Node) → Except Err (List (String × Row))
  | [] => .ok []
  | (rid, nd) :: rest =>
    match nd with
    | .node rf => do
      let tail ← decryptRows D rest
      .ok ((rid, rf.map (fun p => (p.1, decryptField D p.2))) :: tail)
    | _ => .error (.modelBoundary "object entries over a primitive row")

/-- Database.js lines 846 to 863: getTable copies the table without
`_meta` and decrypts every row field. -/
def getTable (D : String → Option String) (s : DBState) (t : String) :
    Except Err (List (String × Row)) :=
  match alookup s t with
  | some (.node fields) =>
    (match alookup fields "_meta" with
     | some mnd =>
       if nodeTruthy mnd then decryptRows D (fields.filter (fun p => p.1 ≠ "_meta"))
       else .error (.tableMissing t)
     | none => .error (.tableMissing t))
  | _ => .error (.tableMissing t)

/-- Operator object of a where condition: `$eq,$ne,$gt,$gte,$lt,$lte,$in,$nin`. -/
structure QOps where
  qeq : Option JSVal := none
  qne : Option JSVal := none
  qgt : Option JSVal := none
  qgte : Option JSVal := none
  qlt : Option JSVal := none
  qlte : Option JSVal := none
  qin : Option (List JSVal) := none
  qnin : Option (List JSVal) := none

/-- A where entry: direct equality or an operator object (the two shapes
the code distinguishes by `typeof condition === "object"`). -/
inductive QCond where
  | direct (v : JSVal)
  | ops (o : QOps)

/-- JS relational comparison on same typed operands; mixed type
comparisons coerce in JS and are outside the model (the claims over the
query engine do not depend on the comparator). -/
def jsLtB : JSVal → JSVal → Bool
  | .num a, .num b => a < b
  | .str a, .str b => a < b
  | _, _ => false

def jsLeB : JSVal → JSVal → Bool
  | .num a, .num b => a ≤ b
  | .str a, .str b => a ≤ b
  | _, _ => false

def matchCond (rowv : JSVal) (cond : QCond) : Bool :=
  match cond with
  | .direct v => jsStrictEqB rowv v
  | .ops o =>
    (match o.qeq with | some v => jsStrictEqB rowv v | none => true) &&
    (match o.qne with | some v => !jsStrictEqB rowv v | none => true) &&
    (match o.qgt with | some v => !jsLeB rowv v | none => true) &&
    (match o.qgte with | some v => !jsLtB rowv v | none => true) &&
    (match o.qlt with | some v => !jsLeB v rowv | none => true) &&
    (match o.qlte with | some v => !jsLtB v rowv | none => true) &&
    (match o.qin with | some lst => lst.any (fun e => jsStrictEqB e rowv) | none => true) &&
    (match o.qnin with | some lst => !lst.any (fun e => jsStrictEqB e rowv) | none => true)

def matchWhere (row : Row) (w : List (String × QCond)) : Bool :=
  w.all (fun p => matchCond ((alookup row p.1).getD .undef) p.2)

/-- The `{id, ...row}` object: the id slot comes first; a row field named
id overwrites its value in place. -/
def mkIdRow (idv : JSVal) (row : Row) : Row :=
  match alookup row "id" with
  | some v => ("id", v) :: row.filter (fun p => p.1 ≠ "id")
  | none => ("id", idv) :: row

/-- `orderBy.split(" ")` destructured into column and direction with
`asc` for an absent direction. -/
def parseOrderBy (ob : String) : String × String :=
  match splitStr ' ' ob with
  | [] => ("", "asc")
  | [c] => (c, "asc")
  | c :: d :: _ => (c, d)

/-- The sort comparator of query (lines 818 to 823). -/
def cmpRows (col : String) (dir : String) (a b : Row) : Int :=
  let av := (alookup a col).getD .undef
  let bv := (alookup b col).getD .undef
  if dir = "desc" then
    if jsLtB bv av then -1 else if jsLtB av bv then 1 else 0
  else
    if jsLtB av bv then -1 else if jsLtB bv av then 1 else 0

/-- `results.sort(comparator)`: a stable sort consistent with the
comparator, as ECMAScript requires. -/
def sortRows (col : String) (dir : String) (rows : List Row) : List Row :=
  rows.mergeSort (fun a b => cmpRows col dir a b ≤ 0)

structure QueryArgs where
  whereC : List (String × QCond) := []
  orderBy : Option String := none
  limit : Option Nat := none
  offset : Nat := 0

/-- Filtering and ordering part of query (lines 787 to 824): the meta
truthiness gate, row enumeration with decryption, where matching, id
tagging, optional ordering (a falsy orderBy is skipped). -/
def queryCore (D : String → Option String) (s : DBState) (t : String)
    (w : List (String × QCond)) (ob : Option String) : Except Err (List Row) :=
  match metaNodeOf s t with
  | none => .error (.tableMissing t)
  | some mnd =>
    if nodeTruthy mnd = false then .error (.tableMissing t)
    else do
      let table ← getTable D s t
      let results := (table.filter (fun p => matchWhere p.2 w)).map
        (fun p => mkIdRow (.str p.1) p.2)
      match ob with
      | none => .ok results
      | some obs =>
        if obs = "" then .ok results
        else
          let cd := parseOrderBy obs
          .ok (sortRows cd.1 cd.2 results)

/-- Lines 826 to 827: `if (offset) slice(offset)` then
`if (limit) slice(0, limit)` — both skipped on falsy arguments. -/
def applySlices (offset : Nat) (limit : Option Nat) (rows : List Row) : List Row :=
  let r1 := if offset ≠ 0 then rows.drop offset else rows
  match limit with
  | some l => if l ≠ 0 then r1.take l else r1
  | none => r1

/-- Database.js lines 787 to 830: `query`. -/
def queryModel (D : String → Option String) (s : DBState) (t : String)
    (args : QueryArgs) : Except Err (List Row) := do
  let base ← queryCore D s t args.whereC args.orderBy
  .ok (applySlices args.offset args.limit base)

/-!
Row mutation operations.

The class body of Database.js defines `delete` twice: the path based
delete of lines 325 to 352 and the where based delete of lines 1033 to
1046.  In a JS class body the later definition wins, so
`PulseaDB.prototype.delete` is the where based one; every call
`this.delete(key)` — including the per row calls inside delete itself and
inside truncate — dispatches to it with the where argument defaulted to
`{}`.  Its recursion is fueled here (the JS call stack); every claim is
settled on inputs where the recursion bottoms out immediately.

The `super.delete` branch of line 1035 is unreachable unless a caller
passes a falsy where explicitly, and would then throw a TypeError (the
class has no superclass); it is not modelled.
-/

mutual

/-- Database.js lines 1033 to 1046: the effective `delete` method.  The
fuel models the JS call stack; it decreases on every call so that the
definition is structural and evaluates inside the kernel, and the entry
points supply more than enough of it for every reachable recursion. -/
def deleteGo (D : String → Option String) : Nat → DBState → String →
    List (String × QCond) → Except Err (DBState × Nat)
  | 0, _, _, _ => .error .outOfFuel
  | fuel + 1, s, tableName, w => do
    let results ← queryModel D s tableName ⟨w, none, none, 0⟩
    let s2 ← deleteRows D fuel s tableName results
    .ok (s2, results.length)

/-- The per row loop of delete: `await this.delete(t + "." + row.id)`. -/
def deleteRows (D : String → Option String) : Nat → DBState → String →
    List Row → Except Err DBState
  | 0, _, _, _ => .error .outOfFuel
  | _ + 1, s, _, [] => .ok s
  | fuel + 1, s, tableName, row :: rest => do
    let idv := (alookup row "id").getD .undef
    let (s2, _) ← deleteGo D fuel s (tableName ++ "." ++ jsDisplay idv) []
    deleteRows D fuel s2 tableName rest

end

def deleteModel (D : String → Option String) (s : DBState) (key : String) :
    Except Err (DBState × Nat) :=
  deleteGo D (2 * s.length + 2) s key []

/-- Database.js lines 1058 to 1068: truncate saves the metadata object,
runs the (effective) delete on the table name, then reinstalls the table
holding only `_meta`. -/
def truncateModel (D : String → Option String) (s : DBState) (t : String) :
    Except Err DBState :=
  match metaNodeOf s t with
  | none => .error (.tableMissing t)
  | some mnd =>
    if nodeTruthy mnd = false then .error (.tableMissing t)
    else do
      let (s2, _) ← deleteGo D (2 * s.length + 2) s t []
      .ok (aset s2 t (.node [("_meta", mnd)]))

/-- Database.js lines 995 to 1005: insert.  The unique id (time plus
random suffix) is external input, passed as a parameter. -/
def insertModel (E D : String → Option String) (rtest : String → String → Bool)
    (s : DBState) (t : String) (id : String) (data : JSVal) :
    Except Err (DBState × JSVal) :=
  match metaNodeOf s t with
  | none => .error (.tableMissing t)
  | some mnd =>
    if nodeTruthy mnd = false then .error (.tableMissing t)
    else do
      let _ ← validateTableData D rtest s t data
      let p ← setModel E D rtest s (t ++ "." ++ id) data
      match data with
      | .obj row => .ok (p.1, .obj (mkIdRow (.str id) row))
      | _ => .error (.modelBoundary "validated data not an object")

/-- Database.js lines 890 to 892: tableExists is the truthiness of
`get(t + "._meta")`. -/
def tableExistsModel (D : String → Option String) (s : DBState) (t : String) :
    Except Err Bool := do
  let v ← getModel D s (t ++ "._meta") .null
  .ok v.jsTruthy

/-- The merge loop of update: fields explicitly undefined are skipped. -/
def applyUpdates (cur : Row) (updates : Row) : Row :=
  updates.foldl (fun acc p =>
    match p.2 with
    | .undef => acc
    | v => aset acc p.1 v) cur

/-- Database.js lines 740 to 785: update.  A key whose first two
segments are nonempty takes the table branch: the table must exist, the
current row must be truthy, the updates are merged, the merged row is
revalidated and written through set.  (Note the destructuring takes only
two segments; a deeper key is truncated to `t.r`.)  Other keys merge into
a generic object value. -/
def updateModel (E D : String → Option String) (rtest : String → String → Bool)
    (s : DBState) (key : String) (updates : Row) : Except Err (DBState × JSVal) :=
  if key = "" then .error .keyRequired
  else
    let parts := splitStr '.' key
    let tableName := parts.headD ""
    let rowId := (parts.drop 1).headD ""
    if rowId ≠ "" ∧ tableName ≠ "" then do
      let te ← tableExistsModel D s tableName
      if te = false then .error (.tableMissing tableName)
      else do
        let currentData ← getModel D s (tableName ++ "." ++ rowId) .null
        if currentData.jsTruthy = false then .error (.recordNotFound key)
        else
          match currentData with
          | .obj cur => do
            let merged := applyUpdates cur updates
            let _ ← validateTableData D rtest s tableName (.obj merged)
            setModel E D rtest s (tableName ++ "." ++ rowId) (.obj merged)
          | _ => .error (.modelBoundary "spread of a non object row")
    else do
      let currentValue ← getModel D s key .null
      match currentValue with
      | .null => .error (.recordNotFound key)
      | .obj cur => setModel E D rtest s key (.obj (applyUpdates cur updates))
      | .arr _ => .error .updateNotObject
      | _ => .error .updateNotObject

/-- Database.js lines 836 to 839: findOne is query with limit one. -/
def findOneModel (D : String → Option String) (s : DBState) (t : String)
    (w : List (String × QCond)) : Except Err (Option Row) := do
  let results ← queryModel D s t ⟨w, none, some 1, 0⟩
  .ok results.head?

/-- The row object upsert reads from its data argument. -/
def rowOfData (data : JSVal) : Row :=
  match data with | .obj r => r | _ => []

/-- The where clause upsert builds from the unique columns. -/
def upsertW (data : JSVal) (uniqueColumns : List String) :
    List (String × QCond) :=
  uniqueColumns.map (fun col =>
    (col, QCond.direct ((alookup (rowOfData data) col).getD .undef)))

/-- Database.js lines 1486 to 1504: upsert.  Without unique columns it
inserts; otherwise it looks the row up by equality on the unique columns
and updates or inserts. -/
def upsertModel (E D : String → Option String) (rtest : String → String → Bool)
    (s : DBState) (t : String) (data : JSVal) (uniqueColumns : List String)
    (id : String) : Except Err (DBState × JSVal) :=
  if uniqueColumns.isEmpty then insertModel E D rtest s t id data
  else
    let rowOf : Row := rowOfData data
    let w := upsertW data uniqueColumns
    do
      let existing ← findOneModel D s t w
      match existing with
      | some ex => do
        let idv := (alookup ex "id").getD .undef
        let p ← updateModel E D rtest s (t ++ "." ++ jsDisplay idv) rowOf
        .ok (p.1, .obj (aset (mkIdRow idv rowOf) "_upserted" (.str "updated")))
      | none => do
        let p ← insertModel E D rtest s t id data
        match p.2 with
        | .obj r => .ok (p.1, .obj (aset r "_upserted" (.str "inserted")))
        | _ => .error (.modelBoundary "insert result not an object")

/-! Claim C10: the public has method. -/

/-- A JS runtime value as seen by a strict comparison: a plain value or a
Promise object (the unawaited result of an async method call, whether it
will fulfill or reject). -/
inductive JSRt where
  | val (v : JSVal)
  | promise (r : Except Err JSVal)

/-- Strict equality against null: only the null value is strictly equal
to null; an object (in particular a Promise) never is. -/
def strictEqNull : JSRt → Bool
  | .val .null => true
  | _ => false

/-- Database.js lines 321 to 323: `has(key)` returns
`this.get(key) !== null` without awaiting; `this.get(key)` evaluates to
the Promise object of the async call. -/
def hasModel (D : String → Option String) (s : DBState) (key : String) : Bool :=
  !strictEqNull (.promise (getModel D s key .null))

/-- Claim C10: for every key, present or absent, has(key) returns true,
because it compares the Promise returned by the asynchronous get against
null without awaiting it, and a Promise object is never null. -/
theorem claim_C10 (D : String → Option String) (s : DBState) (key : String) :
    hasModel D s key = true := rfl

/-! Claim C1: delete of a dotted path.

The shadowed path based delete of lines 325 to 352 is modelled too, to
document the intended behavior that the README describes. -/

def adel {α : Type} : List (String × α) → String → List (String × α)
  | [], _ => []
  | (k, v) :: rest, key => if k = key then rest else (k, v) :: adel rest key

/-- Database.js lines 325 to 352 (the SHADOWED definition): walk to the
parent of the last segment, delete it, then prune every container left
empty bottom up.  The recursive formulation prunes each level after the
inner levels, which is the bottom up stack walk of the code. -/
def delPathGo : List (String × Node) → List String → Except Err (List (String × Node) × Bool)
  | _, [] => .error (.modelBoundary "empty path")
  | fields, [last] => .ok (adel fields last, true)
  | fields, k :: rest =>
    match alookup fields k with
    | none => .ok (fields, false)
    | some (.node sub) => do
      let p ← delPathGo sub rest
      if p.1.isEmpty then .ok (adel fields k, p.2)
      else .ok (aset fields k (.node p.1), p.2)
    | some (.leaf lv) =>
      (match lv with
       | .raw (.obj _) => .error (.modelBoundary "descent into an unencrypted object leaf")
       | .raw (.arr _) => .error (.modelBoundary "descent into an unencrypted array leaf")
       | _ => .error .typeError)
    | some (.tmeta _) => .error (.modelBoundary "write into table metadata")

def deletePathModel (s : DBState) (key : String) : Except Err (DBState × Bool) :=
  if key = "" then .error .keyRequired
  else delPathGo s (splitStr '.' key)

/-- The shadowed path based delete behaves as the spec and the README
describe on scenario B: the leaf is removed, the emptied chain collapses
fully, true is returned, and get of the emptied root then yields the
default. -/
theorem shadowedDelete_scenarioB :
    deletePathModel [("a", .node [("b", .node [("c", .leaf (.tok "c1"))])])] "a.b.c"
      = .ok ([], true) ∧
    getModel cipherD [] "a" .null = .ok .null := ⟨rfl, rfl⟩

/-- Claim C1 (code bug): in the class body the where based
`delete(tableName, where)` of lines 1033 to 1046 shadows the path based
`delete(key)` of lines 325 to 352, so after set("a.b.c", 1) the call
delete("a.b.c") does not remove the leaf and prune: it queries the
nonexistent table named "a.b.c" and throws DatabaseError
"Table 'a.b.c' does not exist", contradicting the documented contract. -/
theorem claim_C1_code_bug :
    setModel cipherE cipherD (fun _ _ => false) [] "a.b.c" (.num 1)
      = .ok ([("a", .node [("b", .node [("c", .leaf (.tok "c1"))])])], .num 1) ∧
    deleteModel cipherD [("a", .node [("b", .node [("c", .leaf (.tok "c1"))])])] "a.b.c"
      = .error (.tableMissing "a.b.c") := ⟨rfl, rfl⟩

/-! Claim C8: behavior of get on partial traversals. -/

/-- The condition on which `get` takes the table fast path (line 287 with
the `_meta` truthiness test of line 289). -/
def getFastB (s : DBState) (ks : List String) : Bool :=
  match ks with
  | [t, r] => r ≠ "" && metaTruthyB s t
  | _ => false

/-- Reference walk written from the amended claim text: get returns the
default the instant a segment is absent or the current node is null or
undefined; traversal through a non null primitive raises the TypeError of
the `in` operator; only a fully resolved leaf is decoded (containers pass
through unchanged). -/
def specWalkC8 (D : String → Option String) (dflt : JSVal) :
    Node → List String → Except Err JSVal
  | .leaf sv, [] => .ok (decryptValue D sv)
  | .node f, [] => .ok (nodeToJSVal (.node f))
  | .tmeta m, [] => .ok (metaToJSVal m)
  | .node fields, k :: rest =>
    (match alookup fields k with
     | none => .ok dflt
     | some nxt => specWalkC8 D dflt nxt rest)
  | .leaf sv, _ :: _ =>
    if svNullish sv then .ok dflt
    else
      (match sv with
       | .raw (.obj _) => .error (.modelBoundary "descent into an unencrypted object leaf")
       | .raw (.arr _) => .error (.modelBoundary "descent into an unencrypted array leaf")
       | _ => .error .typeError)
  | .tmeta _, _ :: _ => .error (.modelBoundary "descent into table metadata")

theorem specWalkC8_eq_walkNode (D : String → Option String) (dflt : JSVal) :
    ∀ (ks : List String) (nd : Node),
      specWalkC8 D dflt nd ks =
        (match walkNode nd ks with
         | .error e => .error e
         | .ok none => .ok dflt
         | .ok (some (.leaf sv)) => .ok (decryptValue D sv)
         | .ok (some (.node f)) => .ok (nodeToJSVal (.node f))
         | .ok (some (.tmeta m)) => .ok (metaToJSVal m)) := by
  intro ks
  induction ks with
  | nil => intro nd ; cases nd <;> rfl
  | cons k rest ih =>
    intro nd
    cases nd with
    | node fields =>
      rw [specWalkC8, walkNode]
      cases alookup fields k with
      | none => rfl
      | some nxt => exact ih nxt
    | leaf sv =>
      cases sv with
      | tok t => rfl
      | raw v => cases v <;> rfl
    | tmeta m => rfl

/-- Claim C8, counterexample: with "a" holding an encrypted leaf (set
stores every leaf as a token string), get("a.b") raises the TypeError of
the `in` operator instead of returning the provided default. -/
theorem claim_C8_counterexample :
    getModel cipherD [("a", .leaf (.tok "T"))] "a.b" (.str "DEFAULT")
      = .error .typeError ∧
    (Except.error .typeError : Except Err JSVal) ≠ .ok (.str "DEFAULT") :=
  ⟨rfl, fun h => Except.noConfusion h⟩

/-- Claim C8, amended: outside the table fast path, get returns the
provided default the instant a segment is absent or the traversed node is
null or undefined, raises a TypeError when traversal reaches a non null
primitive leaf, and decodes only a fully resolved leaf — the reference
walk `specWalkC8` written from this description. -/
theorem claim_C8_amended (D : String → Option String) (s : DBState) (key : String)
    (dflt : JSVal) (hkey : key ≠ "")
    (hfast : getFastB s (splitStr '.' key) = false) :
    getModel D s key dflt = specWalkC8 D dflt (.node s) (splitStr '.' key) := by
  have hgen : ∀ ks, genericGet D s ks dflt = specWalkC8 D dflt (.node s) ks := by
    intro ks
    rw [genericGet, specWalkC8_eq_walkNode]
  rw [getModel, if_neg hkey]
  cases hks : splitStr '.' key with
  | nil => exact hgen []
  | cons t rest =>
    cases rest with
    | nil => exact hgen [t]
    | cons r rest2 =>
      cases rest2 with
      | cons x rest3 => exact hgen _
      | nil =>
        rw [hks] at hfast
        show getTwoSeg D s t r dflt = _
        rw [getTwoSeg]
        by_cases hr : r = ""
        · rw [if_neg (by simp [hr])]
          exact hgen [t, r]
        · have hmt : metaTruthyB s t = false := by
            rw [getFastB] at hfast
            simpa [hr] using hfast
          rw [if_pos hr, hmt]
          rw [if_neg (by simp)]
          exact hgen [t, r]

/-- Witness for claim C8 at a concrete input: on a state holding only a
null leaf at "a", get("a.b") resolves through the amended walk, which
returns the default. -/
theorem claim_C8_amended_witness :
    getModel cipherD [("a", .leaf (.raw .null))] "a.b" (.str "DEFAULT")
      = specWalkC8 cipherD (.str "DEFAULT") (.node [("a", .leaf (.raw .null))])
          (splitStr '.' "a.b") ∧
    specWalkC8 cipherD (.str "DEFAULT") (.node [("a", .leaf (.raw .null))])
        (splitStr '.' "a.b") = .ok (.str "DEFAULT") :=
  ⟨claim_C8_amended cipherD [("a", .leaf (.raw .null))] "a.b" (.str "DEFAULT")
    (by decide) rfl, rfl⟩

/-! Claim C5: offset before limit, and the second element instance. -/

theorem applySlices_one_one (rows : List Row) :
    applySlices 1 (some 1) rows = (rows.drop 1).take 1 := by
  simp [applySlices]

theorem applySlices_zero_none (rows : List Row) :
    applySlices 0 none rows = rows := by
  simp [applySlices]

theorem drop_one_take_one (rows : List Row) :
    (rows.drop 1).take 1 = rows[1]?.toList := by
  match rows with
  | [] => rfl
  | [a] => rfl
  | a :: b :: rest => simp

/-- Claim C5: query applies the offset slice before the limit slice; with
offset one and limit one the result is exactly the second element of the
unsliced ordered result (as a one element list, empty when there is no
second element).  The model is a pure function of the state, so repeated
calls with no intervening writes are literally the same application and
return the same ordered sequence. -/
theorem claim_C5 (D : String → Option String) (s : DBState) (t : String)
    (w : List (String × QCond)) (ob : Option String) :
    queryModel D s t ⟨w, ob, some 1, 1⟩
      = (queryModel D s t ⟨w, ob, none, 0⟩).map (fun rows => (rows.drop 1).take 1) ∧
    (∀ rows, queryModel D s t ⟨w, ob, none, 0⟩ = .ok rows →
      queryModel D s t ⟨w, ob, some 1, 1⟩ = .ok rows[1]?.toList) := by
  have hmain : queryModel D s t ⟨w, ob, some 1, 1⟩
      = (queryModel D s t ⟨w, ob, none, 0⟩).map (fun rows => (rows.drop 1).take 1) := by
    rw [queryModel, queryModel]
    cases hq : queryCore D s t w ob with
    | error e => rfl
    | ok rows =>
      show Except.ok (applySlices 1 (some 1) rows)
        = (Except.ok (applySlices 0 none rows)).map (fun r => (r.drop 1).take 1)
      rw [applySlices_one_one, applySlices_zero_none]
      rfl
  refine ⟨hmain, ?_⟩
  intro rows hrows
  rw [hmain, hrows]
  rw [show (Except.ok rows : Except Err (List Row)).map (fun r => (r.drop 1).take 1)
    = .ok ((rows.drop 1).take 1) from rfl]
  rw [drop_one_take_one]

/-- A sample two row table state used by concrete witnesses. -/
def sampleMeta : Meta :=
  { columns := ["x"], validations := [], indexes := [], relations := [],
    created := "", rowCount := 2 }

def sampleTable : DBState :=
  [("tbl", .node [("_meta", .tmeta sampleMeta),
                  ("r1", .node [("x", .leaf (.tok "c1"))]),
                  ("r2", .node [("x", .leaf (.tok "c2"))])])]

/-- Witness for claim C5 at a concrete input: on a two row table,
offset one and limit one return exactly the second row of the unsliced
result. -/
theorem claim_C5_witness :
    queryModel cipherD sampleTable "tbl" ⟨[], none, some 1, 1⟩
      = .ok [[("id", .str "r2"), ("x", .num 2)]] :=
  (claim_C5 cipherD sampleTable "tbl" [] none).2 _ rfl

/-! Claim C2: set followed by get. -/

theorem alookup_aset_self {α : Type} (l : List (String × α)) (k : String) (v : α) :
    alookup (aset l k v) k = some v := by
  induction l with
  | nil => simp [aset, alookup]
  | cons p rest ih =>
    obtain ⟨k2, w⟩ := p
    by_cases hk : k2 = k
    · simp [aset, alookup, hk]
    · simp [aset, alookup, hk, ih]

theorem alookup_aset_ne {α : Type} (l : List (String × α)) (k k2 : String) (v : α)
    (h : k2 ≠ k) : alookup (aset l k v) k2 = alookup l k2 := by
  have h2 : ¬k = k2 := fun hh => h hh.symm
  induction l with
  | nil => simp [aset, alookup, h2]
  | cons p rest ih =>
    obtain ⟨k3, w⟩ := p
    rw [aset]
    by_cases hk : k3 = k
    · subst hk
      rw [if_pos rfl]
      show (if k3 = k2 then some v else alookup rest k2)
        = if k3 = k2 then some w else alookup rest k2
      rw [if_neg h2, if_neg h2]
    · rw [if_neg hk]
      show (if k3 = k2 then some w else alookup (aset rest k v) k2)
        = if k3 = k2 then some w else alookup rest k2
      by_cases hk2 : k3 = k2
      · rw [if_pos hk2, if_pos hk2]
      · rw [if_neg hk2, if_neg hk2]
        exact ih

theorem setGo_single (fields : List (String × Node)) (last : String) (sv : StoreVal) :
    setGo fields [last] sv = .ok (aset fields last (.leaf sv)) := rfl

theorem setGo_cons_cons (fields : List (String × Node)) (k k2 : String)
    (rest2 : List String) (sv : StoreVal) :
    setGo fields (k :: k2 :: rest2) sv =
      (match alookup fields k with
       | none => do
         let sub ← setGo [] (k2 :: rest2) sv
         Except.ok (aset fields k (Node.node sub))
       | some (.node sub) => do
         let sub2 ← setGo sub (k2 :: rest2) sv
         Except.ok (aset fields k (Node.node sub2))
       | some (.leaf lv) =>
         (match lv with
          | .raw (.obj _) => .error (.modelBoundary "descent into an unencrypted object leaf")
          | .raw (.arr _) => .error (.modelBoundary "descent into an unencrypted array leaf")
          | _ => .error .typeError)
       | some (.tmeta _) => .error (.modelBoundary "write into table metadata")) := rfl

/-- A successful generic set leaves the written leaf exactly where the
same walk of get will find it. -/
theorem setGo_walk (sv : StoreVal) :
    ∀ (ks : List String) (fields fields2 : List (String × Node)),
      ks ≠ [] → setGo fields ks sv = .ok fields2 →
      walkNode (.node fields2) ks = .ok (some (.leaf sv)) := by
  intro ks
  induction ks with
  | nil => intro _ _ h _ ; exact absurd rfl h
  | cons k rest ih =>
    intro fields fields2 _ hset
    cases rest with
    | nil =>
      rw [setGo_single] at hset
      injection hset with hset
      rw [walkNode, ← hset, alookup_aset_self]
      rfl
    | cons k2 rest2 =>
      rw [setGo_cons_cons] at hset
      cases hlk : alookup fields k with
      | none =>
        rw [hlk] at hset
        cases hsub : setGo [] (k2 :: rest2) sv with
        | error e =>
          rw [hsub] at hset
          exact Except.noConfusion hset
        | ok sub =>
          rw [hsub] at hset
          replace hset : Except.ok (aset fields k (Node.node sub))
              = Except.ok fields2 := hset
          injection hset with hset
          rw [walkNode, ← hset, alookup_aset_self]
          exact ih [] sub (by simp) hsub
      | some nd =>
        rw [hlk] at hset
        cases nd with
        | node sub =>
          replace hset : (do
              let sub2 ← setGo sub (k2 :: rest2) sv
              Except.ok (aset fields k (Node.node sub2))) = Except.ok fields2 := hset
          cases hsub : setGo sub (k2 :: rest2) sv with
          | error e =>
            rw [hsub] at hset
            exact Except.noConfusion hset
          | ok sub2 =>
            rw [hsub] at hset
            replace hset : Except.ok (aset fields k (Node.node sub2))
                = Except.ok fields2 := hset
            injection hset with hset
            rw [walkNode, ← hset, alookup_aset_self]
            exact ih sub sub2 (by simp) hsub
        | leaf lv =>
          exfalso
          cases lv with
          | tok t => exact Except.noConfusion hset
          | raw v => cases v <;> exact Except.noConfusion hset
        | tmeta m => exact Except.noConfusion hset

/-- A generic two segment set does not change whether the head segment
carries truthy table metadata (the written field is not `_meta`). -/
theorem setGo_metaTruthy (sv : StoreVal) (t r : String) (hr : r ≠ "_meta")
    (s s2 : DBState) (hset : setGo s [t, r] sv = .ok s2) :
    metaTruthyB s2 t = metaTruthyB s t := by
  rw [setGo_cons_cons] at hset
  cases hlk : alookup s t with
  | none =>
    rw [hlk] at hset
    rw [setGo_single] at hset
    replace hset : Except.ok (aset s t (Node.node (aset [] r (.leaf sv))))
        = Except.ok s2 := hset
    injection hset with hset
    rw [metaTruthyB, metaTruthyB, metaNodeOf, metaNodeOf, ← hset,
      alookup_aset_self, hlk]
    show (match alookup (aset [] r (Node.leaf sv)) "_meta" with
      | some nd => nodeTruthy nd
      | none => false) = false
    rw [show alookup (aset [] r (Node.leaf sv)) "_meta"
        = (if r = "_meta" then some (Node.leaf sv) else none) from rfl]
    rw [if_neg hr]
  | some nd =>
    rw [hlk] at hset
    cases nd with
    | node sub =>
      replace hset : (do
          let sub2 ← setGo sub [r] sv
          Except.ok (aset s t (Node.node sub2))) = Except.ok s2 := hset
      rw [setGo_single] at hset
      replace hset : Except.ok (aset s t (Node.node (aset sub r (.leaf sv))))
          = Except.ok s2 := hset
      injection hset with hset
      rw [metaTruthyB, metaTruthyB, metaNodeOf, metaNodeOf, ← hset,
        alookup_aset_self, hlk]
      show (match alookup (aset sub r (Node.leaf sv)) "_meta" with
          | some nd => nodeTruthy nd
          | none => false)
        = (match alookup sub "_meta" with
          | some nd => nodeTruthy nd
          | none => false)
      rw [alookup_aset_ne sub r "_meta" _ (fun h => hr h.symm)]
    | leaf lv =>
      exfalso
      cases lv with
      | tok tk => exact Except.noConfusion hset
      | raw v => cases v <;> exact Except.noConfusion hset
    | tmeta m => exact Except.noConfusion hset

/-- When the fast path condition fails, setTwoSeg is the generic walk. -/
theorem setTwoSeg_generic (E D : String → Option String)
    (rtest : String → String → Bool) (s : DBState) (t r : String) (v : JSVal)
    (hfast : (r ≠ "" && r ≠ "_meta" && metaTruthyB s t) = false) :
    setTwoSeg E D rtest s t r v = setGeneric E s [t, r] v := by
  rw [setTwoSeg.eq_def]
  by_cases hcond : r ≠ "" ∧ r ≠ "_meta"
  · rw [if_pos hcond]
    have hmt : metaTruthyB s t = false := by
      rcases hcond with ⟨h1, h2⟩
      simpa [h1, h2] using hfast
    rw [hmt]
    rw [if_neg (by simp)]
  · rw [if_neg hcond]

/-- After a successful generic set of a roundtrip safe value, the
generic get of the same segments returns the value. -/
theorem setGeneric_get (E D : String → Option String)
    (hinv : ∀ a b, E a = some b → D b = some a)
    (hne : ∀ a, E a ≠ some "")
    (s s2 : DBState) (ks : List String) (v dflt : JSVal)
    (hnu : noUndefB v = true)
    (hstr : ∀ s0, v = .str s0 → jsonParseF s0 = none)
    (hks : ks ≠ [])
    (hset : setGeneric E s ks v = .ok (s2, v)) :
    genericGet D s2 ks dflt = .ok v := by
  rw [setGeneric] at hset
  cases hgo : setGo s ks (encryptValue E v) with
  | error e =>
    rw [hgo] at hset
    exact Except.noConfusion hset
  | ok s3 =>
    rw [hgo] at hset
    replace hset : Except.ok (s3, v) = Except.ok (s2, v) := hset
    injection hset with hset
    have hs3 : s3 = s2 := congrArg Prod.fst hset
    rw [hs3] at hgo
    have hwalk := setGo_walk (encryptValue E v) ks s s2 hks hgo
    rw [genericGet, hwalk]
    show Except.ok (decryptValue D (encryptValue E v)) = Except.ok v
    rw [decrypt_encrypt_core E D hinv hne v hnu hstr]

/-- Claim C2, counterexample: set("a", "123") followed by get("a")
returns the number 123, not the string "123", because decode JSON.parses
the decrypted text.  (Stated with the concrete cipher pair; any pair
satisfying the collaborator contract gives the same value.) -/
theorem claim_C2_counterexample :
    setModel cipherE cipherD (fun _ _ => false) [] "a" (.str "123")
      = .ok ([("a", .leaf (.tok "c123"))], .str "123") ∧
    getModel cipherD [("a", .leaf (.tok "c123"))] "a" .null = .ok (.num 123) ∧
    JSVal.num 123 ≠ JSVal.str "123" :=
  ⟨rfl, rfl, fun h => JSVal.noConfusion h⟩

/-- Claim C2, amended: set(k, v) followed by get(k) returns v for every
key resolved through the generic path store (no table fast path before or
after the write, and the final segment is not `_meta`) and every
JSON representable value that is not a string whose text parses as JSON,
under any collaborator pair satisfying the inverse contract.  The
counterexample records the failure for such strings. -/
theorem claim_C2_amended (E D : String → Option String)
    (rtest : String → String → Bool)
    (hinv : ∀ a b, E a = some b → D b = some a)
    (hne : ∀ a, E a ≠ some "")
    (s : DBState) (key : String) (v dflt : JSVal) (s2 : DBState)
    (hkey : key ≠ "")
    (hfast : setFastB s (splitStr '.' key) = false)
    (hmeta : ∀ t, splitStr '.' key ≠ [t, "_meta"])
    (hnu : noUndefB v = true)
    (hstr : ∀ s0, v = .str s0 → jsonParseF s0 = none)
    (hset : setModel E D rtest s key v = .ok (s2, v)) :
    getModel D s2 key dflt = .ok v := by
  rw [setModel, if_neg hkey] at hset
  rw [getModel, if_neg hkey]
  cases hks : splitStr '.' key with
  | nil => exact absurd hks (splitStr_ne_nil '.' key)
  | cons t rest =>
    rw [hks] at hset
    cases rest with
    | nil =>
      replace hset : setGeneric E s [t] v = .ok (s2, v) := hset
      exact setGeneric_get E D hinv hne s s2 [t] v dflt hnu hstr (by simp) hset
    | cons r rest2 =>
      cases rest2 with
      | cons x rest3 =>
        replace hset : setGeneric E s (t :: r :: x :: rest3) v = .ok (s2, v) := hset
        exact setGeneric_get E D hinv hne s s2 _ v dflt hnu hstr (by simp) hset
      | nil =>
        have hrm : r ≠ "_meta" := by
          intro hr
          exact hmeta t (by rw [hks, hr])
        rw [hks] at hfast
        replace hset : setTwoSeg E D rtest s t r v = .ok (s2, v) := hset
        rw [setTwoSeg_generic E D rtest s t r v (by
          rw [setFastB] at hfast
          exact hfast)] at hset
        have hgo : setGo s [t, r] (encryptValue E v) = .ok s2 := by
          rw [setGeneric] at hset
          cases hgo2 : setGo s [t, r] (encryptValue E v) with
          | error e =>
            rw [hgo2] at hset
            exact Except.noConfusion hset
          | ok s3 =>
            rw [hgo2] at hset
            replace hset : Except.ok (s3, v) = Except.ok (s2, v) := hset
            injection hset with hset
            have hs3 : s3 = s2 := congrArg Prod.fst hset
            rw [← hs3]
        show getTwoSeg D s2 t r dflt = _
        rw [getTwoSeg]
        by_cases hr : r = ""
        · rw [if_neg (by simp [hr])]
          exact setGeneric_get E D hinv hne s s2 [t, r] v dflt hnu hstr (by simp) hset
        · have hmt2 : metaTruthyB s2 t = metaTruthyB s t :=
            setGo_metaTruthy (encryptValue E v) t r hrm s s2 hgo
          have hmt : metaTruthyB s t = false := by
            rw [setFastB] at hfast
            simpa [hr, hrm] using hfast
          rw [if_pos hr, hmt2, hmt]
          rw [if_neg (by simp)]
          exact setGeneric_get E D hinv hne s s2 [t, r] v dflt hnu hstr (by simp) hset

/-- Witness for claim C2 at a concrete input: set("x.y", 7) on the empty
store followed by get("x.y") returns 7. -/
theorem claim_C2_amended_witness :
    setModel cipherE cipherD (fun _ _ => false) [] "x.y" (.num 7)
      = .ok ([("x", .node [("y", .leaf (.tok "c7"))])], .num 7) ∧
    getModel cipherD [("x", .node [("y", .leaf (.tok "c7"))])] "x.y" .null
      = .ok (.num 7) :=
  ⟨rfl,
   claim_C2_amended cipherE cipherD (fun _ _ => false) cipherInv cipherNe
     [] "x.y" (.num 7) .null [("x", .node [("y", .leaf (.tok "c7"))])]
     (by decide) rfl
     (by
       intro t h
       rw [show splitStr '.' "x.y" = ["x", "y"] from rfl] at h
       injection h with h1 h2
       injection h2 with h3 h4
       exact absurd h3 (by decide))
     (by simp [noUndefB])
     (fun s0 h => absurd h (by simp))
     rfl⟩

/-! Claim C4: validateTableData schema closure and check order. -/

def mC4 : Meta :=
  { columns := ["a", "b"], validations := [], indexes := [], relations := [],
    created := "", rowCount := 0 }

def sC4 : DBState :=
  [("tbl", .node [("_meta", .tmeta mC4)])]

/-- For an object argument over an existing table, validateTableData is
exactly the four checks in sequence. -/
theorem validateTableData_obj_eq (D : String → Option String)
    (rtest : String → String → Bool) (s : DBState) (t : String) (row : Row)
    (m : Meta) (ht : t ≠ "") (hmeta : metaNodeOf s t = some (.tmeta m)) :
    validateTableData D rtest s t (.obj row) = (do
      (if (missingColsOf m row).isEmpty then Except.ok ()
       else Except.error (Err.missingColumns (missingColsOf m row)))
      (if (extraColsOf m row).isEmpty then Except.ok ()
       else Except.error (Err.unknownColumns (extraColsOf m row)))
      checkColumnRules rtest row m.validations
      checkRelations D s row m.relations) := by
  rw [validateTableData.eq_def]
  rw [if_neg (fun h => h.elim ht (fun h2 => Bool.noConfusion h2))]
  rw [hmeta]
  rfl

theorem list_isEmpty_false_of_ne {α : Type} (l : List α) (h : l ≠ []) :
    l.isEmpty = false := by
  cases l with
  | nil => exact absurd rfl h
  | cons a rest => rfl

/-- Claim C4: for every table with at least one declared column,
validateTableData rejects a row missing a declared column and rejects a
row with an undeclared extra column, and the checks run in order
missing, extra, per column rules, relations. -/
theorem claim_C4 (D : String → Option String) (rtest : String → String → Bool)
    (s : DBState) (t : String) (row : Row) (m : Meta)
    (ht : t ≠ "") (hmeta : metaNodeOf s t = some (.tmeta m))
    (hcols : m.columns ≠ []) :
    (∀ c, c ∈ m.columns → (akeys row).contains c = false →
      validateTableData D rtest s t (.obj row)
        = .error (.missingColumns (missingColsOf m row)) ∧
      missingColsOf m row ≠ []) ∧
    (∀ c, c ∈ akeys row → m.columns.contains c = false →
      ∃ e, validateTableData D rtest s t (.obj row) = .error e ∧
        (e = .missingColumns (missingColsOf m row) ∨
         e = .unknownColumns (extraColsOf m row))) ∧
    (missingColsOf m row = [] → extraColsOf m row ≠ [] →
      validateTableData D rtest s t (.obj row)
        = .error (.unknownColumns (extraColsOf m row))) ∧
    (missingColsOf m row = [] → extraColsOf m row = [] →
      validateTableData D rtest s t (.obj row) = (do
        checkColumnRules rtest row m.validations
        checkRelations D s row m.relations)) := by
  have hval := validateTableData_obj_eq D rtest s t row m ht hmeta
  have hmiss_err : missingColsOf m row ≠ [] →
      validateTableData D rtest s t (.obj row)
        = .error (.missingColumns (missingColsOf m row)) := by
    intro hne2
    rw [hval]
    rw [if_neg (by simp [list_isEmpty_false_of_ne _ hne2])]
    rfl
  have hextra_err : missingColsOf m row = [] → extraColsOf m row ≠ [] →
      validateTableData D rtest s t (.obj row)
        = .error (.unknownColumns (extraColsOf m row)) := by
    intro hmiss hne2
    rw [hval]
    rw [if_pos (by simp [hmiss])]
    rw [if_neg (by simp [list_isEmpty_false_of_ne _ hne2])]
    rfl
  refine ⟨?_, ?_, hextra_err, ?_⟩
  · intro c hc hnc
    have hmem : c ∈ missingColsOf m row := by
      rw [missingColsOf]
      exact List.mem_filter.mpr ⟨hc, by simpa using hnc⟩
    have hne2 : missingColsOf m row ≠ [] := List.ne_nil_of_mem hmem
    exact ⟨hmiss_err hne2, hne2⟩
  · intro c hck hnc
    by_cases hmiss : missingColsOf m row = []
    · have hmem : c ∈ extraColsOf m row := by
        rw [extraColsOf]
        exact List.mem_filter.mpr ⟨hck, by simpa using hnc⟩
      exact ⟨_, hextra_err hmiss (List.ne_nil_of_mem hmem), Or.inr rfl⟩
    · exact ⟨_, hmiss_err hmiss, Or.inl rfl⟩
  · intro hmiss hextra
    rw [hval]
    rw [if_pos (by simp [hmiss])]
    rw [if_pos (by simp [hextra])]
    rfl

/-- Witness for claim C4 at a concrete input: a table with columns a, b
rejects the row missing b and rejects the row carrying an extra column z. -/
theorem claim_C4_witness :
    validateTableData cipherD (fun _ _ => true) sC4 "tbl" (.obj [("a", .num 1)])
      = .error (.missingColumns ["b"]) ∧
    validateTableData cipherD (fun _ _ => true) sC4 "tbl"
        (.obj [("a", .num 1), ("b", .num 2), ("z", .num 3)])
      = .error (.unknownColumns ["z"]) := by
  have h1 := claim_C4 cipherD (fun _ _ => true) sC4 "tbl" [("a", .num 1)] mC4
    (by decide) rfl (by decide)
  have h2 := claim_C4 cipherD (fun _ _ => true) sC4 "tbl"
    [("a", .num 1), ("b", .num 2), ("z", .num 3)] mC4
    (by decide) rfl (by decide)
  exact ⟨(h1.1 "b" (by decide) (by decide)).1,
    h2.2.2.1 (by decide) (by decide)⟩

/-! Claim C6: the rowCount invariant over the row mutations. -/

/-- The rowCount invariant of the spec: every table object whose `_meta`
is real metadata records the number of its non `_meta` keys. -/
def rowCountOk (s : DBState) : Prop :=
  ∀ t fields m, alookup s t = some (.node fields) →
    alookup fields "_meta" = some (.tmeta m) →
    m.rowCount = (fields.filter (fun p => p.1 ≠ "_meta")).length

/-- Rewriting a key leaves the other keys of the filtered view alone. -/
theorem filter_aset (l : List (String × Node)) (k : String) (v : Node) :
    (aset l k v).filter (fun p => p.1 ≠ k) = l.filter (fun p => p.1 ≠ k) := by
  induction l with
  | nil => simp [aset]
  | cons p rest ih =>
    obtain ⟨k2, w⟩ := p
    rw [aset]
    by_cases hk : k2 = k
    · subst hk
      rw [if_pos rfl]
      simp
    · rw [if_neg hk]
      rw [List.filter_cons, List.filter_cons,
        if_pos (by simp [hk]), if_pos (by simp [hk])]
      exact congrArg (List.cons (k2, w)) ih

/-- A table without a truthy `_meta` has no metadata object at all
(metadata objects are always truthy). -/
theorem no_tmeta_of_not_truthy (s : DBState) (t : String)
    (sub : List (String × Node)) (hmt : metaTruthyB s t = false)
    (hlk : alookup s t = some (.node sub)) (m : Meta) :
    alookup sub "_meta" ≠ some (.tmeta m) := by
  intro h
  rw [metaTruthyB, metaNodeOf, hlk] at hmt
  replace hmt : (match alookup sub "_meta" with
    | some nd => nodeTruthy nd
    | none => false) = false := hmt
  rw [h] at hmt
  exact Bool.noConfusion hmt

/-- The effective delete never changes the state: on success every
matched row produced an inner call that returned without deleting. -/
theorem delete_noop (D : String → Option String) : ∀ fuel : Nat,
    (∀ s t w s2 n, deleteGo D fuel s t w = .ok (s2, n) → s2 = s) ∧
    (∀ s t rows s2, deleteRows D fuel s t rows = .ok s2 → s2 = s) := by
  intro fuel
  induction fuel with
  | zero =>
    constructor
    · intro s t w s2 n h
      exact Except.noConfusion h
    · intro s t rows s2 h
      exact Except.noConfusion h
  | succ f ih =>
    constructor
    · intro s t w s2 n h
      replace h : (do
          let results ← queryModel D s t ⟨w, none, none, 0⟩
          let s3 ← deleteRows D f s t results
          Except.ok (s3, results.length)) = Except.ok (s2, n) := h
      cases hq : queryModel D s t ⟨w, none, none, 0⟩ with
      | error e =>
        rw [hq] at h
        exact Except.noConfusion h
      | ok results =>
        rw [hq] at h
        replace h : (do
            let s3 ← deleteRows D f s t results
            Except.ok (s3, results.length)) = Except.ok (s2, n) := h
        cases hr : deleteRows D f s t results with
        | error e =>
          rw [hr] at h
          exact Except.noConfusion h
        | ok s3 =>
          rw [hr] at h
          replace h : Except.ok (s3, results.length) = Except.ok (s2, n) := h
          injection h with h
          have h2 : s3 = s2 := congrArg Prod.fst h
          rw [← h2]
          exact ih.2 s t results s3 hr
    · intro s t rows s2 h
      cases rows with
      | nil =>
        replace h : Except.ok s = Except.ok s2 := h
        injection h with h
        exact h.symm
      | cons row rest =>
        replace h : (do
            let p ← deleteGo D f s
              (t ++ "." ++ jsDisplay ((alookup row "id").getD .undef)) []
            deleteRows D f p.1 t rest) = Except.ok s2 := h
        cases hg : deleteGo D f s
            (t ++ "." ++ jsDisplay ((alookup row "id").getD .undef)) [] with
        | error e =>
          rw [hg] at h
          exact Except.noConfusion h
        | ok p =>
          obtain ⟨ps, pn⟩ := p
          rw [hg] at h
          replace h : deleteRows D f ps t rest = Except.ok s2 := h
          have h1 : ps = s := ih.1 s _ [] ps pn hg
          have h2 : s2 = ps := ih.2 ps t rest s2 h
          rw [h2, h1]

/-- A generic two segment write into a table without truthy metadata
preserves the rowCount invariant (such a table has no metadata object,
so the invariant holds vacuously there). -/
theorem setGo_rowCountOk (sv : StoreVal) (t r : String) (hr : r ≠ "_meta")
    (s s2 : DBState) (hmt : metaTruthyB s t = false) (hpre : rowCountOk s)
    (hset : setGo s [t, r] sv = .ok s2) : rowCountOk s2 := by
  rw [setGo_cons_cons] at hset
  cases hlk : alookup s t with
  | none =>
    rw [hlk] at hset
    rw [setGo_single] at hset
    replace hset : Except.ok (aset s t (Node.node (aset [] r (.leaf sv))))
        = Except.ok s2 := hset
    injection hset with hset
    intro t2 fields2 m2 h1 h2
    by_cases ht2 : t2 = t
    · subst ht2
      rw [← hset, alookup_aset_self] at h1
      injection h1 with h1
      injection h1 with h1
      rw [← h1] at h2
      replace h2 : (if r = "_meta" then some (Node.leaf sv) else none)
          = some (Node.tmeta m2) := h2
      rw [if_neg hr] at h2
      exact Option.noConfusion h2
    · rw [← hset, alookup_aset_ne s t t2 _ ht2] at h1
      exact hpre t2 fields2 m2 h1 h2
  | some nd =>
    rw [hlk] at hset
    cases nd with
    | node sub =>
      replace hset : (do
          let sub2 ← setGo sub [r] sv
          Except.ok (aset s t (Node.node sub2))) = Except.ok s2 := hset
      rw [setGo_single] at hset
      replace hset : Except.ok (aset s t (Node.node (aset sub r (.leaf sv))))
          = Except.ok s2 := hset
      injection hset with hset
      intro t2 fields2 m2 h1 h2
      by_cases ht2 : t2 = t
      · subst ht2
        rw [← hset, alookup_aset_self] at h1
        injection h1 with h1
        injection h1 with h1
        rw [← h1] at h2
        rw [alookup_aset_ne sub r "_meta" _ (fun h => hr h.symm)] at h2
        exact absurd h2 (no_tmeta_of_not_truthy s t2 sub hmt hlk m2)
      · rw [← hset, alookup_aset_ne s t t2 _ ht2] at h1
        exact hpre t2 fields2 m2 h1 h2
    | leaf lv =>
      exfalso
      cases lv with
      | tok tk => exact Except.noConfusion hset
      | raw v => cases v <;> exact Except.noConfusion hset
    | tmeta m => exact Except.noConfusion hset

/-- The two segment set (the whole of the row write of every insert,
update and upsert) preserves the rowCount invariant: the fast path
recomputes rowCount, the generic path touches no table with metadata. -/
theorem setTwoSeg_rowCountOk (E D : String → Option String)
    (rtest : String → String → Bool) (s : DBState) (t r : String) (v : JSVal)
    (s2 : DBState) (v2 : JSVal) (hr1 : r ≠ "") (hr2 : r ≠ "_meta")
    (hpre : rowCountOk s)
    (hset : setTwoSeg E D rtest s t r v = .ok (s2, v2)) : rowCountOk s2 := by
  rw [setTwoSeg.eq_def] at hset
  rw [if_pos ⟨hr1, hr2⟩] at hset
  cases hmt : metaTruthyB s t with
  | false =>
    rw [hmt] at hset
    replace hset : setGeneric E s [t, r] v = Except.ok (s2, v2) := hset
    rw [setGeneric] at hset
    cases hgo : setGo s [t, r] (encryptValue E v) with
    | error e =>
      rw [hgo] at hset
      exact Except.noConfusion hset
    | ok s3 =>
      rw [hgo] at hset
      replace hset : Except.ok (s3, v) = Except.ok (s2, v2) := hset
      injection hset with hset
      have hs3 : s3 = s2 := congrArg Prod.fst hset
      rw [hs3] at hgo
      exact setGo_rowCountOk (encryptValue E v) t r hr2 s s2 hmt hpre hgo
  | true =>
    rw [hmt] at hset
    cases hvd : validateTableData D rtest s t v with
    | error e =>
      rw [hvd] at hset
      exact Except.noConfusion hset
    | ok u =>
      rw [hvd] at hset
      cases v with
      | obj row =>
        cases hlk : alookup s t with
        | none =>
          rw [hlk] at hset
          exact Except.noConfusion hset
        | some nd =>
          rw [hlk] at hset
          cases nd with
          | node fields =>
            conv at hset =>
              lhs
              whnf
            cases hmk : alookup fields "_meta" with
            | none =>
              rw [hmk] at hset
              exact Except.noConfusion hset
            | some nd2 =>
              rw [hmk] at hset
              cases nd2 with
              | tmeta m =>
                replace hset : (Except.ok (aset s t (.node (aset
                    (aset fields r (encryptRowNode E row)) "_meta"
                    (.tmeta { m with rowCount :=
                      ((aset fields r (encryptRowNode E row)).filter
                        (fun p => p.1 ≠ "_meta")).length }))), JSVal.obj row)
                    : Except Err (DBState × JSVal))
                  = Except.ok (s2, v2) := hset
                injection hset with hset
                have hs2 : s2 = aset s t (.node (aset
                    (aset fields r (encryptRowNode E row)) "_meta"
                    (.tmeta { m with rowCount :=
                      ((aset fields r (encryptRowNode E row)).filter
                        (fun p => p.1 ≠ "_meta")).length }))) :=
                  (congrArg Prod.fst hset).symm
                intro t2 fields2 m2 h1 h2
                by_cases ht2 : t2 = t
                · subst ht2
                  rw [hs2, alookup_aset_self] at h1
                  injection h1 with h1
                  injection h1 with h1
                  rw [← h1, alookup_aset_self] at h2
                  injection h2 with h2
                  injection h2 with h2
                  rw [← h1, ← h2]
                  rw [filter_aset]
                · rw [hs2, alookup_aset_ne s t t2 _ ht2] at h1
                  exact hpre t2 fields2 m2 h1 h2
              | leaf lv => exact Except.noConfusion hset
              | node sub => exact Except.noConfusion hset
          | leaf lv => exact Except.noConfusion hset
          | tmeta m => exact Except.noConfusion hset
      | null => exact Except.noConfusion hset
      | undef => exact Except.noConfusion hset
      | bool b => exact Except.noConfusion hset
      | num n => exact Except.noConfusion hset
      | str st => exact Except.noConfusion hset
      | arr elems => exact Except.noConfusion hset

/-- The empty key splits into one empty segment. -/
theorem splitStr_empty_len : (splitStr '.' "").length = 1 := rfl

/-- insert preserves the rowCount invariant (the row write runs through
the two segment set). -/
theorem insert_rowCountOk (E D : String → Option String)
    (rtest : String → String → Bool) (s : DBState) (t id : String)
    (data : JSVal) (s2 : DBState) (v : JSVal)
    (hsplit : splitStr '.' (t ++ "." ++ id) = [t, id])
    (hid1 : id ≠ "") (hid2 : id ≠ "_meta") (hpre : rowCountOk s)
    (hins : insertModel E D rtest s t id data = .ok (s2, v)) :
    rowCountOk s2 := by
  have hkey : t ++ "." ++ id ≠ "" := by
    intro h
    rw [h] at hsplit
    have h2 := congrArg List.length hsplit
    rw [splitStr_empty_len] at h2
    simp at h2
  rw [insertModel.eq_def] at hins
  cases hmn : metaNodeOf s t with
  | none =>
    rw [hmn] at hins
    exact Except.noConfusion hins
  | some mnd =>
    rw [hmn] at hins
    conv at hins =>
      lhs
      whnf
    cases htr : nodeTruthy mnd with
    | false =>
      rw [htr] at hins
      exact Except.noConfusion hins
    | true =>
      rw [htr] at hins
      cases hvd : validateTableData D rtest s t data with
      | error e =>
        rw [hvd] at hins
        exact Except.noConfusion hins
      | ok u =>
        rw [hvd] at hins
        cases hsm : setModel E D rtest s (t ++ "." ++ id) data with
        | error e =>
          rw [hsm] at hins
          exact Except.noConfusion hins
        | ok p =>
          obtain ⟨ps, pv⟩ := p
          rw [hsm] at hins
          have hs2 : s2 = ps := by
            cases data with
            | obj row =>
              replace hins : Except.ok (ps, JSVal.obj (mkIdRow (.str id) row))
                  = Except.ok (s2, v) := hins
              injection hins with hins
              exact (congrArg Prod.fst hins).symm
            | null => exact Except.noConfusion hins
            | undef => exact Except.noConfusion hins
            | bool b => exact Except.noConfusion hins
            | num n => exact Except.noConfusion hins
            | str st => exact Except.noConfusion hins
            | arr elems => exact Except.noConfusion hins
          rw [setModel.eq_def] at hsm
          rw [if_neg hkey] at hsm
          rw [hsplit] at hsm
          replace hsm : setTwoSeg E D rtest s t id data = Except.ok (ps, pv) := hsm
          rw [hs2]
          exact setTwoSeg_rowCountOk E D rtest s t id data ps pv hid1 hid2 hpre hsm

/-- update preserves the rowCount invariant for a two segment key. -/
theorem update_rowCountOk (E D : String → Option String)
    (rtest : String → String → Bool) (s : DBState) (t r : String)
    (updates : Row) (s2 : DBState) (v : JSVal)
    (hsplit : splitStr '.' (t ++ "." ++ r) = [t, r]) (ht : t ≠ "")
    (hr1 : r ≠ "") (hr2 : r ≠ "_meta") (hpre : rowCountOk s)
    (hupd : updateModel E D rtest s (t ++ "." ++ r) updates = .ok (s2, v)) :
    rowCountOk s2 := by
  have hkey : t ++ "." ++ r ≠ "" := by
    intro h
    rw [h] at hsplit
    have h2 := congrArg List.length hsplit
    rw [splitStr_empty_len] at h2
    simp at h2
  rw [updateModel.eq_def] at hupd
  rw [if_neg hkey] at hupd
  rw [hsplit] at hupd
  simp only [List.headD_cons, List.drop_succ_cons, List.drop_zero] at hupd
  rw [if_pos (⟨hr1, ht⟩ : r ≠ "" ∧ t ≠ "")] at hupd
  cases hte : tableExistsModel D s t with
  | error e =>
    rw [hte] at hupd
    exact Except.noConfusion hupd
  | ok te =>
    rw [hte] at hupd
    cases te with
    | false => exact Except.noConfusion hupd
    | true =>
      cases hcd : getModel D s (t ++ "." ++ r) .null with
      | error e =>
        rw [hcd] at hupd
        exact Except.noConfusion hupd
      | ok cd =>
        rw [hcd] at hupd
        conv at hupd =>
          lhs
          whnf
        cases hjt : cd.jsTruthy with
        | false =>
          rw [hjt] at hupd
          exact Except.noConfusion hupd
        | true =>
          rw [hjt] at hupd
          cases cd with
          | obj cur =>
            replace hupd : (do
                let _ ← validateTableData D rtest s t
                  (.obj (applyUpdates cur updates))
                setModel E D rtest s (t ++ "." ++ r)
                  (.obj (applyUpdates cur updates)))
                = Except.ok (s2, v) := hupd
            cases hvd : validateTableData D rtest s t
                (.obj (applyUpdates cur updates)) with
            | error e =>
              rw [hvd] at hupd
              exact Except.noConfusion hupd
            | ok u =>
              rw [hvd] at hupd
              replace hupd : setModel E D rtest s (t ++ "." ++ r)
                  (.obj (applyUpdates cur updates)) = Except.ok (s2, v) := hupd
              rw [setModel.eq_def] at hupd
              rw [if_neg hkey] at hupd
              rw [hsplit] at hupd
              replace hupd : setTwoSeg E D rtest s t r
                  (.obj (applyUpdates cur updates)) = Except.ok (s2, v) := hupd
              exact setTwoSeg_rowCountOk E D rtest s t r _ s2 v hr1 hr2 hpre hupd
          | null => exact Except.noConfusion hupd
          | undef => exact Except.noConfusion hupd
          | bool b => exact Except.noConfusion hupd
          | num n => exact Except.noConfusion hupd
          | str st => exact Except.noConfusion hupd
          | arr elems => exact Except.noConfusion hupd

/-- decryptRows answers the empty row list only on the empty input. -/
theorem decryptRows_nil (D : String → Option String)
    (l : List (String × Node)) (h : decryptRows D l = .ok []) : l = [] := by
  cases l with
  | nil => rfl
  | cons p rest =>
    obtain ⟨rid, nd⟩ := p
    exfalso
    cases nd with
    | node rf =>
      replace h : (do
          let tail ← decryptRows D rest
          Except.ok ((rid, rf.map (fun q => (q.1, decryptField D q.2))) :: tail))
          = Except.ok ([] : List (String × Row)) := h
      cases hr : decryptRows D rest with
      | error e =>
        rw [hr] at h
        exact Except.noConfusion h
      | ok tail =>
        rw [hr] at h
        replace h : Except.ok ((rid, rf.map (fun q => (q.1, decryptField D q.2)))
            :: tail) = Except.ok ([] : List (String × Row)) := h
        injection h with h
        exact List.noConfusion h
    | leaf lv => exact Except.noConfusion h
    | tmeta m => exact Except.noConfusion h

/-- Any call of the effective delete on a dotted key whose dotted name is
not a table fails (the recursive per row calls of delete and truncate). -/
theorem deleteRows_cons_err (D : String → Option String) (f : Nat)
    (s : DBState) (t : String) (row : Row) (rest : List Row)
    (hclean : ∀ k, metaNodeOf s (t ++ "." ++ k) = none) (s2 : DBState) :
    deleteRows D f s t (row :: rest) ≠ .ok s2 := by
  intro h
  cases f with
  | zero => exact Except.noConfusion h
  | succ f2 =>
    replace h : (do
        let p ← deleteGo D f2 s
          (t ++ "." ++ jsDisplay ((alookup row "id").getD .undef)) []
        deleteRows D f2 p.1 t rest) = Except.ok s2 := h
    cases f2 with
    | zero => exact Except.noConfusion h
    | succ f3 =>
      have hq : queryCore D s
          (t ++ "." ++ jsDisplay ((alookup row "id").getD .undef)) [] none
          = .error (.tableMissing
            (t ++ "." ++ jsDisplay ((alookup row "id").getD .undef))) := by
        rw [queryCore.eq_def]
        rw [hclean (jsDisplay ((alookup row "id").getD .undef))]
      have hqm : queryModel D s
          (t ++ "." ++ jsDisplay ((alookup row "id").getD .undef))
          ⟨[], none, none, 0⟩
          = .error (.tableMissing
            (t ++ "." ++ jsDisplay ((alookup row "id").getD .undef))) := by
        rw [queryModel.eq_def]
        rw [hq]
        rfl
      have hdg : deleteGo D (f3 + 1) s
          (t ++ "." ++ jsDisplay ((alookup row "id").getD .undef)) []
          = .error (.tableMissing
            (t ++ "." ++ jsDisplay ((alookup row "id").getD .undef))) := by
        rw [deleteGo]
        rw [hqm]
        rfl
      rw [hdg] at h
      exact Except.noConfusion h

/-- If the effective delete of a whole table name succeeds and no dotted
table shadows the per row keys, the table had no row keys at all. -/
theorem deleteGo_table_empty (D : String → Option String) (s : DBState)
    (t : String) (fuel : Nat) (s2 : DBState) (n : Nat)
    (hclean : ∀ k, metaNodeOf s (t ++ "." ++ k) = none)
    (hdg : deleteGo D fuel s t [] = .ok (s2, n))
    (fields : List (String × Node))
    (hlk : alookup s t = some (.node fields)) :
    fields.filter (fun p => p.1 ≠ "_meta") = [] := by
  cases fuel with
  | zero => exact Except.noConfusion hdg
  | succ f =>
    replace hdg : (do
        let results ← queryModel D s t ⟨[], none, none, 0⟩
        let s3 ← deleteRows D f s t results
        Except.ok (s3, results.length)) = Except.ok (s2, n) := hdg
    cases hqres : queryModel D s t ⟨[], none, none, 0⟩ with
    | error e =>
      rw [hqres] at hdg
      exact Except.noConfusion hdg
    | ok results =>
      rw [hqres] at hdg
      cases results with
      | cons row rest =>
        exfalso
        replace hdg : (do
            let s3 ← deleteRows D f s t (row :: rest)
            Except.ok (s3, (row :: rest).length)) = Except.ok (s2, n) := hdg
        cases hdr : deleteRows D f s t (row :: rest) with
        | error e =>
          rw [hdr] at hdg
          exact Except.noConfusion hdg
        | ok s3 =>
          exact deleteRows_cons_err D f s t row rest hclean s3 hdr
      | nil =>
        rw [queryModel.eq_def] at hqres
        cases hqc : queryCore D s t [] none with
        | error e =>
          rw [hqc] at hqres
          exact Except.noConfusion hqres
        | ok base =>
          rw [hqc] at hqres
          replace hqres : Except.ok (applySlices 0 none base)
              = Except.ok ([] : List Row) := hqres
          injection hqres with hqres
          replace hqres : base = [] := hqres
          rw [queryCore.eq_def] at hqc
          cases hmn : metaNodeOf s t with
          | none =>
            rw [hmn] at hqc
            exact Except.noConfusion hqc
          | some mnd =>
            rw [hmn] at hqc
            conv at hqc =>
              lhs
              whnf
            cases hnt : nodeTruthy mnd with
            | false =>
              rw [hnt] at hqc
              exact Except.noConfusion hqc
            | true =>
              rw [hnt] at hqc
              cases hgt : getTable D s t with
              | error e =>
                rw [hgt] at hqc
                exact Except.noConfusion hqc
              | ok table =>
                rw [hgt] at hqc
                replace hqc : Except.ok
                    ((table.filter (fun p => matchWhere p.2 [])).map
                      (fun p => mkIdRow (.str p.1) p.2))
                    = Except.ok base := hqc
                injection hqc with hqc
                rw [hqres] at hqc
                have hfil : table.filter (fun p => matchWhere p.2 []) = [] := by
                  cases hfc : table.filter (fun p => matchWhere p.2 []) with
                  | nil => rfl
                  | cons a l =>
                    rw [hfc] at hqc
                    exact List.noConfusion hqc
                have htab : table = [] := by
                  cases table with
                  | nil => rfl
                  | cons p prest =>
                    replace hfil : p :: List.filter
                        (fun q => matchWhere q.2 []) prest = [] := hfil
                    exact List.noConfusion hfil
                rw [getTable.eq_def] at hgt
                rw [hlk] at hgt
                conv at hgt =>
                  lhs
                  whnf
                cases hmk : alookup fields "_meta" with
                | none =>
                  rw [hmk] at hgt
                  exact Except.noConfusion hgt
                | some mnd2 =>
                  rw [hmk] at hgt
                  conv at hgt =>
                    lhs
                    whnf
                  cases hnt2 : nodeTruthy mnd2 with
                  | false =>
                    rw [hnt2] at hgt
                    exact Except.noConfusion hgt
                  | true =>
                    rw [hnt2] at hgt
                    replace hgt : decryptRows D
                        (fields.filter (fun p => p.1 ≠ "_meta"))
                        = Except.ok table := hgt
                    rw [htab] at hgt
                    exact decryptRows_nil D _ hgt

/-- The effective delete preserves the rowCount invariant (on success it
never removed anything). -/
theorem delete_rowCountOk (D : String → Option String) (s : DBState)
    (key : String) (s2 : DBState) (n : Nat) (hpre : rowCountOk s)
    (hdel : deleteModel D s key = .ok (s2, n)) : rowCountOk s2 := by
  have hs2 : s2 = s :=
    (delete_noop D (2 * s.length + 2)).1 s key [] s2 n hdel
  rw [hs2]
  exact hpre

/-- truncate preserves the rowCount invariant: it can only succeed on a
table that already has no rows, and reinstalls its metadata object. -/
theorem truncate_rowCountOk (D : String → Option String) (s : DBState)
    (t : String) (s2 : DBState)
    (hclean : ∀ k, metaNodeOf s (t ++ "." ++ k) = none)
    (hpre : rowCountOk s)
    (htr : truncateModel D s t = .ok s2) : rowCountOk s2 := by
  rw [truncateModel.eq_def] at htr
  cases hmn : metaNodeOf s t with
  | none =>
    rw [hmn] at htr
    exact Except.noConfusion htr
  | some mnd =>
    rw [hmn] at htr
    conv at htr =>
      lhs
      whnf
    cases hnt : nodeTruthy mnd with
    | false =>
      rw [hnt] at htr
      exact Except.noConfusion htr
    | true =>
      rw [hnt] at htr
      cases hdg : deleteGo D (2 * s.length + 2) s t [] with
      | error e =>
        rw [hdg] at htr
        exact Except.noConfusion htr
      | ok p =>
        obtain ⟨ps, pn⟩ := p
        rw [hdg] at htr
        replace htr : Except.ok (aset ps t (Node.node [("_meta", mnd)]))
            = Except.ok s2 := htr
        injection htr with htr
        have hps : ps = s := (delete_noop D (2 * s.length + 2)).1 s t [] ps pn hdg
        rw [hps] at htr hdg
        have hfm : ∃ fields, alookup s t = some (.node fields) ∧
            alookup fields "_meta" = some mnd := by
          rw [metaNodeOf] at hmn
          cases hlk : alookup s t with
          | none =>
            rw [hlk] at hmn
            exact Option.noConfusion hmn
          | some nd =>
            rw [hlk] at hmn
            cases nd with
            | node fields =>
              replace hmn : alookup fields "_meta" = some mnd := hmn
              exact ⟨fields, rfl, hmn⟩
            | leaf lv => exact Option.noConfusion hmn
            | tmeta m => exact Option.noConfusion hmn
        obtain ⟨fields, hlk, hmk⟩ := hfm
        have hempty : fields.filter (fun p => p.1 ≠ "_meta") = [] :=
          deleteGo_table_empty D s t _ s pn hclean hdg fields hlk
        intro t2 f2 m2 h1 h2
        rw [← htr] at h1
        by_cases ht2 : t2 = t
        · subst ht2
          rw [alookup_aset_self] at h1
          injection h1 with h1
          injection h1 with h1
          rw [← h1] at h2
          replace h2 : some mnd = some (Node.tmeta m2) := h2
          injection h2 with h2
          rw [h2] at hmk
          have hrc := hpre t2 fields m2 hlk hmk
          rw [hempty] at hrc
          rw [← h1]
          exact hrc
        · rw [alookup_aset_ne s t t2 _ ht2] at h1
          exact hpre t2 f2 m2 h1 h2

/-- upsert preserves the rowCount invariant: both of its routes end in
the two segment set. -/
theorem upsert_rowCountOk (E D : String → Option String)
    (rtest : String → String → Bool) (s : DBState) (t : String) (data : JSVal)
    (uniqueColumns : List String) (id : String) (s2 : DBState) (v : JSVal)
    (hsplit : splitStr '.' (t ++ "." ++ id) = [t, id])
    (hid1 : id ≠ "") (hid2 : id ≠ "_meta") (ht : t ≠ "")
    (hexkey : ∀ ex, findOneModel D s t (upsertW data uniqueColumns)
        = .ok (some ex) →
      splitStr '.' (t ++ "." ++ jsDisplay ((alookup ex "id").getD .undef))
        = [t, jsDisplay ((alookup ex "id").getD .undef)] ∧
      jsDisplay ((alookup ex "id").getD .undef) ≠ "" ∧
      jsDisplay ((alookup ex "id").getD .undef) ≠ "_meta")
    (hpre : rowCountOk s)
    (hups : upsertModel E D rtest s t data uniqueColumns id = .ok (s2, v)) :
    rowCountOk s2 := by
  rw [upsertModel.eq_def] at hups
  cases hub : uniqueColumns.isEmpty with
  | true =>
    rw [hub] at hups
    replace hups : insertModel E D rtest s t id data = Except.ok (s2, v) := hups
    exact insert_rowCountOk E D rtest s t id data s2 v hsplit hid1 hid2 hpre hups
  | false =>
    rw [hub] at hups
    conv at hups =>
      lhs
      whnf
    cases hfo : findOneModel D s t (upsertW data uniqueColumns) with
    | error e =>
      rw [hfo] at hups
      exact Except.noConfusion hups
    | ok existing =>
      rw [hfo] at hups
      cases existing with
      | some ex =>
        obtain ⟨hsp2, hk1, hk2⟩ := hexkey ex hfo
        conv at hups =>
          lhs
          whnf
        cases hupd : updateModel E D rtest s
            (t ++ "." ++ jsDisplay ((alookup ex "id").getD .undef))
            (rowOfData data) with
        | error e =>
          rw [hupd] at hups
          exact Except.noConfusion hups
        | ok p =>
          obtain ⟨ps, pv⟩ := p
          rw [hupd] at hups
          replace hups : Except.ok (ps, JSVal.obj (aset
              (mkIdRow ((alookup ex "id").getD .undef) (rowOfData data))
              "_upserted" (.str "updated"))) = Except.ok (s2, v) := hups
          injection hups with hups
          have hs2 : s2 = ps := (congrArg Prod.fst hups).symm
          rw [hs2]
          exact update_rowCountOk E D rtest s t
            (jsDisplay ((alookup ex "id").getD .undef)) (rowOfData data)
            ps pv hsp2 ht hk1 hk2 hpre hupd
      | none =>
        conv at hups =>
          lhs
          whnf
        cases hins : insertModel E D rtest s t id data with
        | error e =>
          rw [hins] at hups
          exact Except.noConfusion hups
        | ok p =>
          obtain ⟨ps, pv⟩ := p
          rw [hins] at hups
          have hrc := insert_rowCountOk E D rtest s t id data ps pv
            hsplit hid1 hid2 hpre hins
          cases pv with
          | obj rr =>
            replace hups : Except.ok (ps, JSVal.obj
                (aset rr "_upserted" (.str "inserted")))
                = Except.ok (s2, v) := hups
            injection hups with hups
            have hs2 : s2 = ps := (congrArg Prod.fst hups).symm
            rw [hs2]
            exact hrc
          | null => exact Except.noConfusion hups
          | undef => exact Except.noConfusion hups
          | bool b => exact Except.noConfusion hups
          | num n => exact Except.noConfusion hups
          | str st => exact Except.noConfusion hups
          | arr elems => exact Except.noConfusion hups

def mC6 : Meta :=
  { columns := ["x"], validations := [], indexes := [], relations := [],
    created := "", rowCount := 0 }

def sC6 : DBState := [("tbl", .node [("_meta", .tmeta mC6)])]

/-- Claim C6: after every row level mutation of a table — insert, update,
upsert, row delete and truncate — every table's `_meta.rowCount` equals
the number of that table's keys other than `_meta`.  Each conjunct states
preservation of the invariant for one operation, under hygiene
hypotheses on the key segments (dot free, nonempty, not `_meta`) and, for
truncate, on the absence of dotted shadow tables. -/
theorem claim_C6 (E D : String → Option String)
    (rtest : String → String → Bool) :
    (∀ s t id data s2 v, splitStr '.' (t ++ "." ++ id) = [t, id] →
      id ≠ "" → id ≠ "_meta" → rowCountOk s →
      insertModel E D rtest s t id data = .ok (s2, v) → rowCountOk s2) ∧
    (∀ s t r updates s2 v, splitStr '.' (t ++ "." ++ r) = [t, r] →
      t ≠ "" → r ≠ "" → r ≠ "_meta" → rowCountOk s →
      updateModel E D rtest s (t ++ "." ++ r) updates = .ok (s2, v) →
      rowCountOk s2) ∧
    (∀ s t data uniqueColumns id s2 v,
      splitStr '.' (t ++ "." ++ id) = [t, id] →
      id ≠ "" → id ≠ "_meta" → t ≠ "" →
      (∀ ex, findOneModel D s t (upsertW data uniqueColumns)
          = .ok (some ex) →
        splitStr '.' (t ++ "." ++ jsDisplay ((alookup ex "id").getD .undef))
          = [t, jsDisplay ((alookup ex "id").getD .undef)] ∧
        jsDisplay ((alookup ex "id").getD .undef) ≠ "" ∧
        jsDisplay ((alookup ex "id").getD .undef) ≠ "_meta") →
      rowCountOk s →
      upsertModel E D rtest s t data uniqueColumns id = .ok (s2, v) →
      rowCountOk s2) ∧
    (∀ s key s2 n, rowCountOk s →
      deleteModel D s key = .ok (s2, n) → rowCountOk s2) ∧
    (∀ s t s2, (∀ k, metaNodeOf s (t ++ "." ++ k) = none) → rowCountOk s →
      truncateModel D s t = .ok s2 → rowCountOk s2) :=
  ⟨fun s t id data s2 v h1 h2 h3 h4 h5 =>
      insert_rowCountOk E D rtest s t id data s2 v h1 h2 h3 h4 h5,
   fun s t r updates s2 v h1 h2 h3 h4 h5 h6 =>
      update_rowCountOk E D rtest s t r updates s2 v h1 h2 h3 h4 h5 h6,
   fun s t data uc id s2 v h1 h2 h3 h4 h5 h6 h7 =>
      upsert_rowCountOk E D rtest s t data uc id s2 v h1 h2 h3 h4 h5 h6 h7,
   fun s key s2 n h1 h2 => delete_rowCountOk D s key s2 n h1 h2,
   fun s t s2 h1 h2 h3 => truncate_rowCountOk D s t s2 h1 h2 h3⟩

/-- Witness for claim C6 at a concrete input: inserting a row into a one
column table of no rows yields rowCount one, and the invariant holds in
the resulting state. -/
theorem claim_C6_witness :
    insertModel cipherE cipherD (fun _ _ => true) sC6 "tbl" "r1"
        (.obj [("x", .num 5)])
      = .ok ([("tbl", .node [("_meta", .tmeta { mC6 with rowCount := 1 }),
              ("r1", .node [("x", .leaf (.tok "c5"))])])],
             .obj [("id", .str "r1"), ("x", .num 5)]) ∧
    rowCountOk [("tbl", .node [("_meta", .tmeta { mC6 with rowCount := 1 }),
              ("r1", .node [("x", .leaf (.tok "c5"))])])] := by
  have hpre : rowCountOk sC6 := by
    intro t fields m h1 h2
    rw [show alookup sC6 t
        = (if "tbl" = t then some (Node.node [("_meta", Node.tmeta mC6)])
           else none) from rfl] at h1
    by_cases h : "tbl" = t
    · rw [if_pos h] at h1
      injection h1 with h1
      injection h1 with h1
      rw [← h1] at h2
      replace h2 : some (Node.tmeta mC6) = some (Node.tmeta m) := h2
      injection h2 with h2
      injection h2 with h2
      rw [← h1, ← h2]
      rfl
    · rw [if_neg h] at h1
      exact Option.noConfusion h1
  constructor
  · rfl
  · exact (claim_C6 cipherE cipherD (fun _ _ => true)).1 sC6 "tbl" "r1"
      (.obj [("x", .num 5)]) _ _ rfl (by decide) (by decide) hpre rfl

/-! Claim C9: backup retention. -/

/-- The filter of cleanOldBackups and findLatestBackup (lines 567 and
581): `file.startsWith("backup-") && file.endsWith("." + fileFormat)`. -/
def isBackupName (fmt : String) (f : String) : Bool :=
  "backup-".data.isPrefixOf f.data && ("." ++ fmt).data.isSuffixOf f.data

/-- Lexicographic order on char lists: the string comparison
`Array.prototype.sort` applies to file names. -/
def charsLtB : List Char → List Char → Bool
  | [], [] => false
  | [], _ :: _ => true
  | _ :: _, [] => false
  | a :: as, b :: bs =>
    if a < b then true else if b < a then false else charsLtB as bs

def strLtB (a b : String) : Bool := charsLtB a.data b.data

theorem charsLtB_irrefl : ∀ cs, charsLtB cs cs = false := by
  intro cs
  induction cs with
  | nil => rfl
  | cons a as ih =>
    rw [charsLtB]
    rw [if_neg (lt_irrefl a), if_neg (lt_irrefl a)]
    exact ih

theorem charsLtB_asymm : ∀ as bs, charsLtB as bs = true →
    charsLtB bs as = false := by
  intro as
  induction as with
  | nil =>
    intro bs h
    cases bs with
    | nil => exact Bool.noConfusion h
    | cons b bs => rfl
  | cons a as ih =>
    intro bs h
    cases bs with
    | nil => exact Bool.noConfusion h
    | cons b bs =>
      rw [charsLtB] at h
      rw [charsLtB]
      by_cases hab : a < b
      · rw [if_neg (lt_asymm hab), if_pos hab]
      · rw [if_neg hab] at h
        by_cases hba : b < a
        · rw [if_pos hba] at h
          exact Bool.noConfusion h
        · rw [if_neg hba] at h
          rw [if_neg hba, if_neg hab]
          exact ih bs h

theorem strLtB_irrefl (a : String) : strLtB a a = false := charsLtB_irrefl a.data

theorem strLtB_asymm (a b : String) (h : strLtB a b = true) :
    strLtB b a = false := charsLtB_asymm a.data b.data h

/-- Database.js lines 579 to 594: cleanOldBackups.  The backup files of
the directory are sorted ascending (ISO timestamps sort lexicographically)
and reversed; if more than maxBackups remain, everything after the first
maxBackups of the descending list — the oldest files — is unlinked.  The
directory is a list of file names; the sorted descending list is spelled
out twice instead of let bound. -/
def cleanOldBackups (maxB : Nat) (fmt : String) (dir : List String) :
    List String :=
  if (((dir.filter (fun f => isBackupName fmt f)).mergeSort
      (fun a b => !strLtB b a)).reverse).length > maxB then
    dir.filter (fun f =>
      !((((dir.filter (fun g => isBackupName fmt g)).mergeSort
        (fun a b => !strLtB b a)).reverse).drop maxB).contains f)
  else dir

/-- Database.js lines 503 to 534: one backup call as seen by the backups
directory: the new timestamped file is written, then cleanOldBackups
runs. -/
def backupOp (maxB : Nat) (fmt : String) (dir : List String)
    (name : String) : List String :=
  cleanOldBackups maxB fmt (dir ++ [name])

/-- The newest m names of a chronological list. -/
def lastN (m : Nat) (l : List String) : List String := l.drop (l.length - m)

/-- Removing exactly the members of a distinct prefix keeps the rest. -/
theorem filter_drop_of_sorted (l1 l2 : List String)
    (hnd : (l1 ++ l2).Pairwise (fun a b => strLtB a b = true))
    (stale : List String) (hmem : ∀ f, f ∈ stale ↔ f ∈ l1) :
    (l1 ++ l2).filter (fun f => !stale.contains f) = l2 := by
  rw [List.filter_append]
  have h1 : l1.filter (fun f => !stale.contains f) = [] := by
    rw [List.filter_eq_nil_iff]
    intro a ha
    simp [(hmem a).mpr ha]
  have h2 : l2.filter (fun f => !stale.contains f) = l2 := by
    rw [List.filter_eq_self]
    intro a ha
    have hnot : a ∉ stale := by
      intro hin
      have hal1 : a ∈ l1 := (hmem a).mp hin
      have := (List.pairwise_append.mp hnd).2.2 a hal1 a ha
      rw [strLtB_irrefl] at this
      exact Bool.noConfusion this
    simp [hnot]
  rw [h1, h2, List.nil_append]

/-- One backup call on the newest maxB of a chronological prefix p, with
a name newer than all of p, keeps exactly the newest maxB of p ++ [n]. -/
theorem cleanOld_step (maxB : Nat) (fmt : String) (p : List String)
    (n : String)
    (hsorted : (p ++ [n]).Pairwise (fun a b => strLtB a b = true))
    (hback : ∀ f ∈ p ++ [n], isBackupName fmt f = true) :
    backupOp maxB fmt (lastN maxB p) n = lastN maxB (p ++ [n]) := by
  have hsub : List.Sublist (lastN maxB p ++ [n]) (p ++ [n]) :=
    (List.drop_sublist _ p).append (List.Sublist.refl [n])
  have hsl : (lastN maxB p ++ [n]).Pairwise (fun a b => strLtB a b = true) :=
    hsorted.sublist hsub
  have hbl : ∀ f ∈ lastN maxB p ++ [n], isBackupName fmt f = true :=
    fun f hf => hback f (hsub.subset hf)
  rw [backupOp, cleanOldBackups]
  rw [List.filter_eq_self.mpr hbl]
  rw [List.mergeSort_of_sorted
    (hsl.imp (fun hab => by rw [strLtB_asymm _ _ hab]; rfl))]
  by_cases hbig : maxB ≤ p.length
  · have hlen1 : (lastN maxB p).length = maxB := by
      rw [lastN, List.length_drop]
      omega
    have hlen : (lastN maxB p ++ [n]).length = maxB + 1 := by
      rw [List.length_append, hlen1]
      rfl
    rw [if_pos (by rw [List.length_reverse, hlen]; omega)]
    rw [List.drop_reverse]
    have hfd := filter_drop_of_sorted
      ((lastN maxB p ++ [n]).take ((lastN maxB p ++ [n]).length - maxB))
      ((lastN maxB p ++ [n]).drop ((lastN maxB p ++ [n]).length - maxB))
      (by rw [List.take_append_drop]; exact hsl)
      (((lastN maxB p ++ [n]).take
        ((lastN maxB p ++ [n]).length - maxB)).reverse)
      (fun f => by simp)
    rw [List.take_append_drop] at hfd
    rw [hfd]
    have hdirL : lastN maxB p ++ [n]
        = (p ++ [n]).drop (p.length - maxB) := by
      rw [List.drop_append_of_le_length (Nat.sub_le _ _)]
      rfl
    rw [hdirL, List.drop_drop, lastN, List.length_append]
    congr 1
    rw [← hdirL, hlen]
    simp only [List.length_cons, List.length_nil]
    omega
  · have h0 : p.length - maxB = 0 := by omega
    have hpl : lastN maxB p = p := by
      rw [lastN, h0, List.drop_zero]
    rw [hpl]
    rw [if_neg (by
      rw [List.length_reverse, List.length_append]
      simp only [List.length_cons, List.length_nil]
      omega)]
    rw [lastN, List.length_append]
    have h1 : p.length + ([n] : List String).length - maxB = 0 := by
      simp only [List.length_cons, List.length_nil]
      omega
    rw [h1, List.drop_zero]

/-- Folding backup calls over ascending names extends the retained set
one name at a time. -/
theorem backup_fold (maxB : Nat) (fmt : String) :
    ∀ (names p : List String),
    (p ++ names).Pairwise (fun a b => strLtB a b = true) →
    (∀ f ∈ p ++ names, isBackupName fmt f = true) →
    List.foldl (backupOp maxB fmt) (lastN maxB p) names
      = lastN maxB (p ++ names) := by
  intro names
  induction names with
  | nil =>
    intro p h1 h2
    rw [List.append_nil]
    rfl
  | cons n rest ih =>
    intro p hs hb
    rw [List.foldl_cons]
    have hsub : List.Sublist (p ++ [n]) (p ++ n :: rest) :=
      (List.Sublist.refl p).append (List.sublist_append_left [n] rest)
    have hstep : backupOp maxB fmt (lastN maxB p) n
        = lastN maxB (p ++ [n]) :=
      cleanOld_step maxB fmt p n (hs.sublist hsub)
        (fun f hf => hb f (hsub.subset hf))
    rw [hstep]
    have hrec := ih (p ++ [n])
      (by rw [List.append_assoc]; exact hs)
      (by rw [List.append_assoc]; exact hb)
    rw [hrec, List.append_assoc]
    rfl

/-- Claim C9: with retention maxBackups, creating maxBackups + k backups
(k at least one), each with a fresh name sorting after all earlier ones,
leaves exactly the newest maxBackups backup files in the directory. -/
theorem claim_C9 (maxB k : Nat) (fmt : String) (names : List String)
    (hk : 1 ≤ k)
    (hsorted : names.Pairwise (fun a b => strLtB a b = true))
    (hback : ∀ f ∈ names, isBackupName fmt f = true)
    (hlen : names.length = maxB + k) :
    List.foldl (backupOp maxB fmt) [] names = names.drop k ∧
    (List.foldl (backupOp maxB fmt) [] names).length = maxB := by
  have h := backup_fold maxB fmt names []
    (by rw [List.nil_append]; exact hsorted)
    (by rw [List.nil_append]; exact hback)
  rw [show lastN maxB ([] : List String) = [] from by
    rw [lastN]; exact List.drop_nil] at h
  rw [List.nil_append] at h
  constructor
  · rw [h, lastN, hlen]
    congr 1
    omega
  · rw [h, lastN, List.length_drop, hlen]
    omega

/-- Witness for claim C9 at a concrete input: three backups with
retention two keep the two newest. -/
theorem claim_C9_witness :
    List.foldl (backupOp 2 "json") []
        ["backup-1.json", "backup-2.json", "backup-3.json"]
      = ["backup-1.json", "backup-2.json", "backup-3.json"].drop 1 ∧
    (List.foldl (backupOp 2 "json") []
        ["backup-1.json", "backup-2.json", "backup-3.json"]).length = 2 :=
  claim_C9 2 1 "json" ["backup-1.json", "backup-2.json", "backup-3.json"]
    (by decide) (by decide) (by decide) rfl
